import Mathlib

/-!
Shallow embedding of the assembly-graph library (`lib/assembly_graph.py`) and
proofs about it.

Modelling conventions, applied uniformly:
* Python dictionaries are modelled as insertion-ordered association lists
  (`List (key × value)`); keys built by the modelled operations are unique,
  mirroring Python dict keys.  Where the source iterates a dict, the model
  iterates the association list in insertion order.
* Python floats are modelled as exact rationals `ℚ`; `float('inf')` is the
  dedicated constructor `ErrVal.inf`.
* DNA sequences (Python `str`) are modelled as `List Char`.
* Signed segment identifiers are `Int`, unsigned segment numbers are the
  non-negative `Int`s, as in the source.
* A Python dict access `d[k]` that could raise `KeyError` is modelled totally
  with a default (`lookupD`, `getSeg`); an `Option`-valued variant is used
  where a claim is specifically about the error branch.
-/

/-- A link dictionary: signed segment number -> list of signed segment numbers.
Models `self.forward_links` / `self.reverse_links` (Python dicts). -/
abbrev Links := List (Int × List Int)

/-- First-match lookup in an association list, modelling Python `d[k]` /
`k in d` on a dict (keys are unique in all states the model builds). -/
def linkLookup (ls : Links) (k : Int) : Option (List Int) :=
  (ls.find? (fun kv => kv.1 == k)).map (fun kv => kv.2)

/-- Total lookup with `[]` default. -/
def lookupD (ls : Links) (k : Int) : List Int :=
  (linkLookup ls k).getD []

/-- Membership of the link `u -> v` in a link dictionary. -/
def memL (ls : Links) (u v : Int) : Prop := v ∈ lookupD ls u

instance (ls : Links) (u v : Int) : Decidable (memL ls u v) := by
  unfold memL; infer_instance

/-- `d[k] = vs`: replace the value at the first occurrence of `k`, or append a
new entry when `k` is absent (Python dict assignment). -/
def linkSet (ls : Links) (k : Int) (vs : List Int) : Links :=
  match ls with
  | [] => [(k, vs)]
  | kv :: rest => if kv.1 = k then (k, vs) :: rest else kv :: linkSet rest k vs

/-- `if k not in d: d[k] = []` followed by `if v not in d[k]: d[k].append(v)`,
the insertion pattern of `add_link` and `build_rc_links_if_necessary`. -/
def linksAdd (ls : Links) (k v : Int) : Links :=
  let cur := lookupD ls k
  if v ∈ cur then ls else linkSet ls k (cur ++ [v])

/-- `if k not in d: d[k] = []` followed by an unconditional
`d[k].append(v)`, the insertion pattern of `build_reverse_links` and the
GFA link loader. -/
def linksAppend (ls : Links) (k v : Int) : Links :=
  linkSet ls k (lookupD ls k ++ [v])

/-- Absolute value on `Int` (Python `abs`). -/
def iabs (x : Int) : Int := if x < 0 then -x else x

/-- `remove_nums_from_links`: rebuild a link dictionary excluding the given
(positive) numbers, dropping entries whose filtered value list is empty. -/
def remove_nums_from_links (links : Links) (numsToRemove : List Int) : Links :=
  links.filterMap (fun kv =>
    if iabs kv.1 ∈ numsToRemove then none
    else
      let vs := kv.2.filter (fun x => iabs x ∉ numsToRemove)
      if vs = [] then none else some (kv.1, vs))

/-- `build_rc_links_if_necessary`: for every link `(s -> e)` of the input, add
the reverse-complement twin `(-e -> -s)` when absent.  The source iterates the
(shallow-copied) input dict; the model folds over a snapshot of the input
entries, which yields the same link membership. -/
def build_rc_links_if_necessary (links : Links) : Links :=
  links.foldl (fun acc kv => kv.2.foldl (fun a e => linksAdd a (-e) (-kv.1)) acc) links

/-- `build_reverse_links`: transpose a link dictionary
(`reverse_links[end].append(start)`, no duplicate suppression). -/
def build_reverse_links (links : Links) : Links :=
  links.foldl (fun acc kv => kv.2.foldl (fun a e => linksAppend a e kv.1) acc) []

/-- The forward-link dict built by the GFA loader from the parsed `L`-line
pairs: `forward_links[start] = [end]` when absent, else append. -/
def loadForwardLinks (pairs : List (Int × Int)) : Links :=
  pairs.foldl (fun acc p => linksAppend acc p.1 p.2) []

/- ### Sequence utilities -/

/-- The extended-IUPAC alphabet of `complement_base`. -/
def forwardTable : List Char := "ATGCatgcRYSWKMryswkmBDHVbdhvNn.-?".toList

/-- The complement table of `complement_base` (one longer: the trailing `N`
is what Python's `reverse[-1]` returns when `find` yields `-1`). -/
def reverseTable : List Char := "TACGtacgYRSWMKyrswmkVHDBvhdbNn.-?N".toList

/-- `complement_base`: `reverse[forward.find(base)]`; an out-of-alphabet base
(`find` = -1) maps to the last character of the table, `N`. -/
def complement_base (base : Char) : Char :=
  match forwardTable.findIdx? (fun c => c == base) with
  | some i => reverseTable.getD i 'N'
  | none => 'N'

/-- `reverse_complement`: complement each base of the reversed sequence. -/
def reverse_complement (seq : List Char) : List Char :=
  seq.reverse.map complement_base

/- ### Signed-ID algebra -/

/-- `get_sign_string`: `'+'` for non-negative, `'-'` for negative. -/
def get_sign_string (num : Int) : List Char :=
  if num ≥ 0 then ['+'] else ['-']

/-- Decimal rendering of a natural number, modelling Python `str`. -/
def natToChars (n : Nat) : List Char :=
  if n = 0 then ['0']
  else ((Nat.digits 10 n).reverse).map (fun d => Char.ofNat (48 + d))

/-- Decimal parsing of a digit string, modelling Python `int` on the strings
produced by `natToChars`. -/
def parseNat (cs : List Char) : Nat :=
  cs.foldl (fun acc c => 10 * acc + (c.toNat - 48)) 0

/-- `int_to_signed_string`: `str(abs(num)) + get_sign_string(num)`. -/
def int_to_signed_string (num : Int) : List Char :=
  natToChars num.natAbs ++ get_sign_string num

/-- `signed_string_to_int`: last character is the sign, the rest the number.
(Python `signed_str[-1]` raises on the empty string; the model defaults.) -/
def signed_string_to_int (signedStr : List Char) : Int :=
  let sign := signedStr.getLastD '+'
  let num : Int := parseNat signedStr.dropLast
  if sign = '+' then num else -num

/- ### Segment -/

/-- A graph segment (class `Segment`). -/
structure Segment where
  number : Int
  depth : ℚ
  forward_sequence : List Char
  reverse_sequence : List Char
deriving Repr, DecidableEq

/-- The `Segment` constructor: the sequence lands on the strand selected by
`positive`, the other strand starts empty. -/
def Segment.make (number : Int) (depth : ℚ) (sequence : List Char)
    (positive : Bool) : Segment :=
  if positive then ⟨number, depth, sequence, []⟩ else ⟨number, depth, [], sequence⟩

/-- `build_other_sequence_if_necessary`. -/
def Segment.buildOther (s : Segment) : Segment :=
  let s1 := if s.forward_sequence = [] then
    { s with forward_sequence := reverse_complement s.reverse_sequence } else s
  if s1.reverse_sequence = [] then
    { s1 with reverse_sequence := reverse_complement s1.forward_sequence } else s1

/-- `get_length`. -/
def Segment.getLength (s : Segment) : Nat := s.forward_sequence.length

/-- `get_length_no_overlap` (may be negative for very short segments). -/
def Segment.getLengthNoOverlap (s : Segment) (overlap : Nat) : Int :=
  (s.getLength : Int) - (overlap : Int)

/-- `is_homopolymer`: non-empty and all bases equal case-insensitively. -/
def Segment.isHomopolymer (s : Segment) : Bool :=
  match s.forward_sequence with
  | [] => false
  | b :: rest => rest.all (fun c => c.toLower == b.toLower)

/- ### Graph container -/

/-- The assembly graph (class `AssemblyGraph`).  File parsing is out of the
model; `loadFromGfaData` below plays the constructor on parsed data. -/
structure Graph where
  segments : List (Int × Segment)
  forward_links : Links
  reverse_links : Links
  copy_depths : List (Int × List ℚ)
  paths : List (String × List Int)
  overlap : Nat
deriving Repr, DecidableEq

/-- Placeholder for an absent segment: stands in for Python's `KeyError` on
`self.segments[n]`; all uses in the claims stay within the key set. -/
def defaultSegment : Segment := ⟨0, 0, [], []⟩

/-- `self.segments[n]`, totalised. -/
def getSeg (g : Graph) (n : Int) : Segment :=
  ((g.segments.find? (fun kv => kv.1 == n)).map (fun kv => kv.2)).getD defaultSegment

/-- The (positive) key list of the segments dict. -/
def segKeys (g : Graph) : List Int := g.segments.map (fun kv => kv.1)

/-- Dict assignment `self.segments[n] = seg`. -/
def segSet (segs : List (Int × Segment)) (k : Int) (v : Segment) :
    List (Int × Segment) :=
  match segs with
  | [] => [(k, v)]
  | kv :: rest => if kv.1 = k then (k, v) :: rest else kv :: segSet rest k v

/-- The `load_from_gfa` constructor on already-parsed data: segment records
`(number, depth, sequence)` (S lines, always stored on the forward strand),
link pairs (L lines), and paths (P lines). -/
def loadFromGfaData (segData : List (Int × ℚ × List Char))
    (linkData : List (Int × Int)) (paths : List (String × List Int))
    (overlap : Nat) : Graph :=
  let segments := segData.foldl
    (fun acc x => segSet acc x.1 ((Segment.make x.1 x.2.1 x.2.2 true).buildOther)) []
  let fwd := build_rc_links_if_necessary (loadForwardLinks linkData)
  { segments := segments
    forward_links := fwd
    reverse_links := build_reverse_links fwd
    copy_depths := []
    paths := paths
    overlap := overlap }

/-- `add_link`: insert the link, its reverse-view entries, and the
reverse-complement twin of both, in the source's order. -/
def addLink (g : Graph) (start e : Int) : Graph :=
  let f1 := linksAdd g.forward_links start e
  let r1 := linksAdd g.reverse_links e start
  let r2 := linksAdd r1 (-start) (-e)
  let f2 := linksAdd f1 (-e) (-start)
  { g with forward_links := f2, reverse_links := r2 }

/-- `get_seq_from_signed_seg_num`. -/
def getSeqFromSignedSegNum (g : Graph) (signedNum : Int) : List Char :=
  if signedNum > 0 then (getSeg g signedNum).forward_sequence
  else (getSeg g (-signedNum)).reverse_sequence

/-- `get_next_available_seg_number`: `max(keys) + 1` (Python raises on an
empty dict; the model uses 0 as the base of the fold). -/
def getNextAvailableSegNumber (g : Graph) : Int :=
  (segKeys g).foldl max 0 + 1

/-- `remove_segments`: rebuild segments and links without the given numbers
and delete every path touching either strand of one of them. -/
def removeSegments (g : Graph) (numsToRemove : List Int) : Graph :=
  { g with
    segments := g.segments.filter (fun kv => kv.1 ∉ numsToRemove)
    forward_links := remove_nums_from_links g.forward_links numsToRemove
    reverse_links := remove_nums_from_links g.reverse_links numsToRemove
    paths := g.paths.filter (fun p =>
      !(p.2.any (fun x => decide (x ∈ numsToRemove) || decide (-x ∈ numsToRemove)))) }

/- ### Path list utilities -/

/-- One replacement step of `find_replace_in_list`: replace the leftmost
occurrence of `pattern` (compared slice-wise, as the source does) by the
single value `replacement`; `none` when the pattern does not occur. -/
def replaceOnce (lst pattern : List Int) (replacement : Int) : Option (List Int) :=
  match lst with
  | [] => none
  | x :: xs =>
    if pattern.isPrefixOf (x :: xs) then some (replacement :: (x :: xs).drop pattern.length)
    else (replaceOnce xs pattern replacement).map (fun l => x :: l)

/-- The `while replacement_made` loop of `find_replace_in_list`, fuelled: each
replacement of a length-≥2 pattern shortens the list, so `lst.length + 1`
steps reach the source's fixed point (the source loops forever on the
degenerate patterns the callers never pass). -/
def findReplaceAux : Nat → List Int → List Int → Int → List Int
  | 0, lst, _, _ => lst
  | fuel + 1, lst, pattern, replacement =>
    match replaceOnce lst pattern replacement with
    | none => lst
    | some l => findReplaceAux fuel l pattern replacement

/-- `find_replace_in_list`. -/
def find_replace_in_list (lst pattern : List Int) (replacement : Int) : List Int :=
  findReplaceAux (lst.length + 1) lst pattern replacement

/-- The chunks of a list split at every occurrence of `seg` (occurrences
removed, empty chunks kept), as produced by the loop of `split_path`. -/
def splitChunks (path : List Int) (seg : Int) : List (List Int) :=
  match path with
  | [] => [[]]
  | x :: xs =>
    let rest := splitChunks xs seg
    if x = seg then [] :: rest
    else match rest with
      | [] => [[x]]
      | c :: cs => (x :: c) :: cs

/-- `split_path`: split at `seg` and keep only chunks of length > 1. -/
def split_path (path : List Int) (seg : Int) : List (List Int) :=
  (splitChunks path seg).filter (fun x => x.length > 1)

/-- `split_path_multiple`. -/
def split_path_multiple (path : List Int) (segs : List Int) : List (List Int) :=
  segs.foldl (fun parts seg => parts.flatMap (fun part => split_path part seg)) [path]

/-- `insert_num_in_list` on lists of length ≥ 2: emit each element, and after
each adjacent pair `(val1, val2)` also emit `insertVal`. -/
def insertAux (v1 v2 insertVal : Int) : List Int → List Int
  | x :: y :: rest =>
    x :: (if x = v1 ∧ y = v2 then [insertVal] else []) ++ insertAux v1 v2 insertVal (y :: rest)
  | l => l

/-- `insert_num_in_list`. -/
def insert_num_in_list (lst : List Int) (v1 v2 insertVal : Int) : List Int :=
  if lst.length < 2 then lst else insertAux v1 v2 insertVal lst

/- ### Dead ends, traversal and metrics -/

/-- `dead_end_count`: counts the absent forward / reverse adjacency keys of
the positive strand. -/
def deadEndCount (g : Graph) (segmentNum : Int) : Nat :=
  (if (linkLookup g.forward_links segmentNum).isNone then 1 else 0) +
  (if (linkLookup g.reverse_links segmentNum).isNone then 1 else 0)

/-- Insertion-ordered de-duplication; stands in for Python's `list(set(...))`
(whose order the interpreter does not specify). -/
def dedupKeepFirst (xs : List Int) : List Int :=
  xs.foldl (fun acc x => if x ∈ acc then acc else acc ++ [x]) []

/-- `get_connected_segments`: absolute values of the forward and reverse
neighbours, de-duplicated. -/
def getConnectedSegments (g : Graph) (segmentNum : Int) : List Int :=
  dedupKeepFirst ((lookupD g.forward_links segmentNum).map iabs ++
                  (lookupD g.reverse_links segmentNum).map iabs)

/-- Add each not-yet-visited element to the queue and the visited list
(the inner `for k in connected_segments` loop of `get_connected_components`). -/
def enqueueNew : List Int → List Int × List Int → List Int × List Int
  | [], p => p
  | k :: ks, (q, visited) =>
    if k ∈ visited then enqueueNew ks (q, visited)
    else enqueueNew ks (q ++ [k], visited ++ [k])

/-- The BFS `while q` loop of `get_connected_components`, fuelled; the fuel
`bfsFuel` below provably suffices to drain the queue. -/
def bfsAux (g : Graph) : Nat → List Int → List Int → List Int → List Int × List Int
  | 0, _, visited, comp => (comp, visited)
  | _ + 1, [], visited, comp => (comp, visited)
  | fuel + 1, w :: q, visited, comp =>
    bfsAux g fuel (enqueueNew (getConnectedSegments g w) (q, visited)).1
      (enqueueNew (getConnectedSegments g w) (q, visited)).2 (comp ++ [w])

/-- Every node the BFS can ever enqueue: the segment keys and the absolute
values occurring in either link dict. -/
def allNodes (g : Graph) : List Int :=
  segKeys g ++ g.forward_links.flatMap (fun kv => kv.2.map iabs) ++
  g.reverse_links.flatMap (fun kv => kv.2.map iabs)

/-- Queue-draining fuel for one BFS run. -/
def bfsFuel (g : Graph) : Nat := (allNodes g).length + 1

/-- The body of the `for v in self.segments.iterkeys()` loop of
`get_connected_components`: skip visited keys, else BFS from the key. -/
def ccStep (g : Graph) (acc : List (List Int) × List Int) (kv : Int × Segment) :
    List (List Int) × List Int :=
  if kv.1 ∈ acc.2 then acc
  else (acc.1 ++ [(bfsAux g (bfsFuel g) [kv.1] (acc.2 ++ [kv.1]) []).1],
        (bfsAux g (bfsFuel g) [kv.1] (acc.2 ++ [kv.1]) []).2)

/-- `get_connected_components`: BFS over the strand-agnostic neighbour
relation, seeded from each unvisited segment key in dict order. -/
def getConnectedComponents (g : Graph) : List (List Int) :=
  (g.segments.foldl (ccStep g) ([], [])).1

/-- The scan of `get_median_read_depth`: walk the depth-sorted segments until
the accumulated overlap-compensated length reaches the halfway mark. -/
def medianScan (overlap : Nat) (halfway : Int) : List Segment → Int → ℚ
  | [], _ => 0
  | s :: rest, soFar =>
    let soFar' := soFar + s.getLengthNoOverlap overlap
    if soFar' ≥ halfway then s.depth else medianScan overlap halfway rest soFar'

/-- `get_median_read_depth`: median depth by base; an empty `segmentList`
means the whole graph (Python's `if not segment_list:` truthiness). -/
def getMedianReadDepth (g : Graph) (segmentList : List Segment) : ℚ :=
  let sl := if segmentList = [] then g.segments.map (fun kv => kv.2) else segmentList
  let sorted := sl.mergeSort (fun a b => decide (a.depth ≤ b.depth))
  let totalLength := (sorted.map (fun s => s.getLengthNoOverlap g.overlap)).sum
  let halfway := Int.fdiv totalLength 2
  medianScan g.overlap halfway sorted 0

/-- `all_segments_below_depth`. -/
def allSegmentsBelowDepth (g : Graph) (segmentNums : List Int) (cutoff : ℚ) : Bool :=
  segmentNums.all (fun num => decide ((getSeg g num).depth < cutoff))

/-- `deleting_would_create_dead_end`, totalised with `lookupD` (the
`Option`-valued variant below tracks the `KeyError` branch). -/
def deletingWouldCreateDeadEnd (g : Graph) (segmentNum : Int) : Bool :=
  ((lookupD g.forward_links segmentNum).any
      (fun d => (lookupD g.reverse_links d).length == 1)) ||
  ((lookupD g.reverse_links segmentNum).any
      (fun u => (lookupD g.forward_links u).length == 1))

/-- Walk a neighbour list looking for one whose adjacency list in `ls` has
length 1; `none` as soon as a lookup would raise `KeyError` (later
neighbours are not inspected, as in the source's early `return True`). -/
def scanNeighbors (ls : Links) : List Int → Option Bool
  | [] => some false
  | d :: rest =>
    match linkLookup ls d with
    | none => none
    | some l => if l.length = 1 then some true else scanNeighbors ls rest

/-- `deleting_would_create_dead_end` with Python's partial dict accesses made
explicit: `none` exactly when the source would raise `KeyError`. -/
def deletingWouldCreateDeadEndOpt (g : Graph) (segmentNum : Int) : Option Bool :=
  match linkLookup g.forward_links segmentNum with
  | none => none
  | some ds =>
    match scanNeighbors g.reverse_links ds with
    | none => none
    | some true => some true
    | some false =>
      match linkLookup g.reverse_links segmentNum with
      | none => none
      | some us => scanNeighbors g.forward_links us

/-- The per-segment removal decision of `filter_by_read_depth` (the body of
its inner loop), as the Boolean the source's short-circuit evaluates. -/
def removalCondB (g : Graph) (wholeCutoff compCutoff : ℚ) (component : List Int)
    (num : Int) : Bool :=
  let segment := getSeg g num
  (decide (segment.depth < wholeCutoff) || decide (segment.depth < compCutoff)) &&
  (decide (deadEndCount g num > 0) ||
   allSegmentsBelowDepth g component wholeCutoff ||
   !(deletingWouldCreateDeadEnd g num))

/- ### Structural mutators -/

/-- `filter_by_read_depth`. -/
def filterByReadDepth (g : Graph) (relativeDepthCutoff : ℚ) : Graph :=
  let wholeGraphCutoff := getMedianReadDepth g [] * relativeDepthCutoff
  let components := getConnectedComponents g
  let nums := components.flatMap (fun component =>
    let componentSegs := component.map (getSeg g)
    let componentCutoff := getMedianReadDepth g componentSegs * relativeDepthCutoff
    component.filter (removalCondB g wholeGraphCutoff componentCutoff component))
  removeSegments g nums

/-- `all_segments_are_one_base`: every non-empty segment is a homopolymer and
agrees (on either strand) with the first non-empty segment's base. -/
def allSegmentsAreOneBase (segments : List Segment) : Bool :=
  let nonEmpty := segments.filter (fun s => decide (s.getLength > 0))
  match nonEmpty with
  | [] => false
  | s0 :: _ =>
    let base := (s0.forward_sequence.headD 'x').toLower
    nonEmpty.all (fun seg =>
      seg.isHomopolymer &&
      !((seg.forward_sequence.headD 'x').toLower != base &&
        (seg.reverse_sequence.headD 'x').toLower != base))

/-- `filter_homopolymer_loops`: drop every connected component made of
one-base segments. -/
def filterHomopolymerLoops (g : Graph) : Graph :=
  let nums := (getConnectedComponents g).flatMap (fun componentNums =>
    if allSegmentsAreOneBase (componentNums.map (getSeg g)) then componentNums else [])
  removeSegments g nums

/-- Python's `s[:-k]` for the merged sequence: for `k = 0` this is `s[:0]`,
the empty string, not `s`. -/
def pySliceDropLast (s : List Char) (k : Nat) : List Char :=
  if k = 0 then [] else s.take (s.length - k)

/-- `merge_two_segments`. -/
def mergeTwoSegments (g : Graph) (segNum1 segNum2 : Int) : Graph :=
  let seg1 := getSeg g (iabs segNum1)
  let seg2 := getSeg g (iabs segNum2)
  let seg1Seq := getSeqFromSignedSegNum g segNum1
  let seg2Seq := getSeqFromSignedSegNum g segNum2
  let mergedForwardSeq := pySliceDropLast seg1Seq g.overlap ++ seg2Seq
  let mergedReverseSeq := reverse_complement mergedForwardSeq
  -- The merged depth is the weighted mean over overlap-compensated lengths.
  let seg1Len := seg1.getLengthNoOverlap g.overlap
  let seg2Len := seg2.getLengthNoOverlap g.overlap
  let lenSum := seg1Len + seg2Len
  let meanDepth : ℚ :=
    if lenSum > 0 then
      seg1.depth * ((seg1Len : ℚ) / (lenSum : ℚ)) + seg2.depth * ((seg2Len : ℚ) / (lenSum : ℚ))
    else 1
  -- `new_seg_num = get_next_available_seg_number(); if seg_2_len > seg_1_len:
  -- new_seg_num = abs(seg_num_2)`.
  let newSegNum := if seg2Len > seg1Len then iabs segNum2 else getNextAvailableSegNumber g
  let newSeg : Segment :=
    { number := newSegNum, depth := meanDepth,
      forward_sequence := mergedForwardSeq, reverse_sequence := mergedReverseSeq }
  let pathsCopy := g.paths
  let outgoingLinks := lookupD g.forward_links segNum2
  let incomingLinks := lookupD g.reverse_links segNum1
  let g1 := removeSegments g [iabs segNum1, iabs segNum2]
  let g2 := { g1 with segments := segSet g1.segments newSegNum newSeg }
  let g3 := outgoingLinks.foldl (fun h link => addLink h newSegNum link) g2
  let g4 := incomingLinks.foldl (fun h link => addLink h link newSegNum) g3
  -- Merge the segments in any paths, then split paths still containing them.
  let mergedPaths := pathsCopy.map (fun p =>
    let a := find_replace_in_list p.2 [segNum1, segNum2] newSegNum
    (p.1, find_replace_in_list a [-segNum2, -segNum1] (-newSegNum)))
  let newPaths := mergedPaths.flatMap (fun p =>
    let splitPaths := split_path_multiple p.2 [segNum1, segNum2, -segNum1, -segNum2]
    if splitPaths.length = 1 then [(p.1, splitPaths.getD 0 [])]
    else if splitPaths.length > 1 then
      splitPaths.enum.map (fun iq => (p.1 ++ "_" ++ toString (iq.1 + 1), iq.2))
    else [])
  { g4 with paths := newPaths }

/-- `try_to_merge_two_segments`: `some` of the merged graph when the two
segments form a simple unbranching pair, else `none` (= `return False`). -/
def tryToMergeTwoSegments (g : Graph) (segNum1 segNum2 : Int) : Option Graph :=
  if segNum1 = segNum2 then none
  else
    match linkLookup g.forward_links segNum1, linkLookup g.reverse_links segNum2 with
    | some f1, some r2 =>
      if f1.length ≠ 1 ∨ r2.length ≠ 1 then none
      else if f1.getD 0 0 ≠ segNum2 ∨ r2.getD 0 0 ≠ segNum1 then none
      else some (mergeTwoSegments g segNum1 segNum2)
    | _, _ => none

/-- One pass of the `for num, _ in self.segments` loop of
`merge_all_possible`: the first successful merge, or `none`. -/
def mergeScan (g : Graph) : List Int → Option Graph
  | [] => none
  | num :: rest =>
    let t1 :=
      match linkLookup g.forward_links num with
      | some l => if l.length = 1 then tryToMergeTwoSegments g num (l.getD 0 0) else none
      | none => none
    match t1 with
    | some g1 => some g1
    | none =>
      let t2 :=
        match linkLookup g.forward_links (-num) with
        | some l => if l.length = 1 then tryToMergeTwoSegments g (-num) (l.getD 0 0) else none
        | none => none
      match t2 with
      | some g2 => some g2
      | none => mergeScan g rest

/-- The `while try_to_merge` loop, fuelled. -/
def mergeAllAux : Nat → Graph → Graph
  | 0, g => g
  | fuel + 1, g =>
    match mergeScan g (segKeys g) with
    | none => g
    | some g1 => mergeAllAux fuel g1

/-- `merge_all_possible`.  Each merge replaces two segments by one, so the
segment count bounds the number of merges and is sufficient fuel. -/
def mergeAllPossible (g : Graph) : Graph :=
  mergeAllAux g.segments.length g

/-- One candidate junction repair: the body of the `for seg_num in seg_nums`
loop of `repair_four_way_junctions`. -/
def repairStep (g : Graph) (segNum : Int) : Graph :=
  match linkLookup g.forward_links segNum with
  | none => g
  | some endingSegs =>
    if endingSegs.length ≠ 2 then g
    else
      let endNum1 := endingSegs.getD 0 0
      let endNum2 := endingSegs.getD 1 0
      if (lookupD g.reverse_links endNum1).length ≠ 2 ∨
         (lookupD g.reverse_links endNum2).length ≠ 2 then g
      else
        -- `starting_segs = set(self.reverse_links[end_num_1])`; the source
        -- then calls `starting_segs.union(set(self.reverse_links[end_num_2]))`
        -- and DISCARDS the result (`set.union` is non-mutating), so the
        -- second end's starts never enter the set.
        let startingSegs := dedupKeepFirst (lookupD g.reverse_links endNum1)
        if startingSegs.length ≠ 2 then g
        else
          let startNum1 := startingSegs.getD 0 0
          let startNum2 := startingSegs.getD 1 0
          let start1 := getSeg g (iabs startNum1)
          let start2 := getSeg g (iabs startNum2)
          let end1 := getSeg g (iabs endNum1)
          let end2 := getSeg g (iabs endNum2)
          -- `if end_1 > 0:` compares the Segment OBJECT with 0; under
          -- Python 2's mixed-type ordering an instance is always > 0, so the
          -- forward branch is always taken.
          let bridgeSeq := end1.forward_sequence.take g.overlap
          let bridgeDepth := (start1.depth + start2.depth + end1.depth + end2.depth) / 2
          let bridgeNum := getNextAvailableSegNumber g
          let bridgeSeg := (Segment.make bridgeNum bridgeDepth bridgeSeq true).buildOther
          let segs := segSet g.segments bridgeNum bridgeSeg
          -- Rebuild the links around the junction (twelve dict assignments).
          let f1 := linkSet g.forward_links startNum1 [bridgeNum]
          let f2 := linkSet f1 startNum2 [bridgeNum]
          let f3 := linkSet f2 bridgeNum [endNum1, endNum2]
          let r1 := linkSet g.reverse_links bridgeNum [startNum1, startNum2]
          let r2 := linkSet r1 endNum1 [bridgeNum]
          let r3 := linkSet r2 endNum2 [bridgeNum]
          let r4 := linkSet r3 (-startNum1) [-bridgeNum]
          let r5 := linkSet r4 (-startNum2) [-bridgeNum]
          let r6 := linkSet r5 (-bridgeNum) [-endNum1, -endNum2]
          let f4 := linkSet f3 (-bridgeNum) [-startNum1, -startNum2]
          let f5 := linkSet f4 (-endNum1) [-bridgeNum]
          let f6 := linkSet f5 (-endNum2) [-bridgeNum]
          -- Path fix-up: the source assigns `self.paths[name] =
          -- insert_num_in_list(segs, ...)` eight times, each reading the
          -- ORIGINAL `segs`, so only the last assignment survives.
          let paths := g.paths.map (fun p =>
            (p.1, insert_num_in_list p.2 (-endNum2) (-startNum2) (-bridgeNum)))
          { g with segments := segs, forward_links := f6, reverse_links := r6,
                   paths := paths }

/-- `repair_four_way_junctions`: scan the snapshot of positive and negated
segment keys, repairing at each detected junction. -/
def repairFourWayJunctions (g : Graph) : Graph :=
  let segNums := segKeys g ++ (segKeys g).map (fun x => -x)
  segNums.foldl repairStep g

/- ### Copy-depth propagation (the pieces `merge_copy_depths` needs) -/

/-- Copy-depth lookup `self.copy_depths[n]`, `none` when unassigned. -/
def cdLookup (g : Graph) (n : Int) : Option (List ℚ) :=
  (g.copy_depths.find? (fun kv => kv.1 == n)).map (fun kv => kv.2)

/-- Dict assignment `self.copy_depths[n] = depths`. -/
def cdSet (cds : List (Int × List ℚ)) (k : Int) (v : List ℚ) : List (Int × List ℚ) :=
  match cds with
  | [] => [(k, v)]
  | kv :: rest => if kv.1 = k then (k, v) :: rest else kv :: cdSet rest k v

/-- `get_segments_without_copies`. -/
def getSegmentsWithoutCopies (g : Graph) : List Segment :=
  (g.segments.map (fun kv => kv.2)).filter (fun s => (cdLookup g s.number).isNone)

/-- `all_have_copy_depths`. -/
def allHaveCopyDepths (g : Graph) (segmentNumbers : List Int) : Bool :=
  segmentNumbers.all (fun num => (cdLookup g num).isSome)

/-- `lead_exclusively_to`: the first segment's only forward link is the
second segment. -/
def leadExclusivelyTo (g : Graph) (segmentNum1 segmentNum2 : Int) : Bool :=
  match linkLookup g.forward_links segmentNum1 with
  | none => false
  | some l => l == [segmentNum2]

/-- `lead_exclusively_from`. -/
def leadExclusivelyFrom (g : Graph) (segmentNum1 segmentNum2 : Int) : Bool :=
  match linkLookup g.reverse_links segmentNum1 with
  | none => false
  | some l => l == [segmentNum2]

/-- `get_exclusive_inputs`. -/
def getExclusiveInputs (g : Graph) (segmentNumber : Int) : List Int :=
  match linkLookup g.reverse_links segmentNumber with
  | none => []
  | some us => (us.filter (fun x => leadExclusivelyTo g x segmentNumber)).map iabs

/-- `get_exclusive_outputs`. -/
def getExclusiveOutputs (g : Graph) (segmentNumber : Int) : List Int :=
  match linkLookup g.forward_links segmentNumber with
  | none => []
  | some ds => (ds.filter (fun x => leadExclusivelyFrom g x segmentNumber)).map iabs

/-- A relative error, or `float('inf')`. -/
inductive ErrVal where
  | fin : ℚ → ErrVal
  | inf : ErrVal
deriving Repr, DecidableEq

/-- IEEE-style strict comparison: `inf < inf` is false, `x < inf` is true. -/
def ErrVal.ltB : ErrVal → ErrVal → Bool
  | .fin a, .fin b => decide (a < b)
  | .fin _, .inf => true
  | .inf, _ => false

/-- `get_error`: `|source - target| / target`, infinite unless `target > 0`. -/
def get_error (source target : ℚ) : ErrVal :=
  if target > 0 then .fin (|source - target| / target) else .inf

/-- `scale_copy_depths`: scale the source depths so that they sum to the
target, sort descending, and report the error.  (With `ℚ` arithmetic a zero
source sum yields factor 0 where Python would raise `ZeroDivisionError`.) -/
def scaleCopyDepths (targetDepth : ℚ) (sourceDepths : List ℚ) : List ℚ × ErrVal :=
  let sourceDepthSum := sourceDepths.foldl (· + ·) 0
  let scalingFactor := targetDepth / sourceDepthSum
  let scaledDepths := (sourceDepths.map (fun x => scalingFactor * x)).mergeSort
    (fun a b => decide (b ≤ a))
  (scaledDepths, get_error sourceDepthSum targetDepth)

/-- `scale_copy_depths_from_source_segments`: concatenate the sources'
copy-depth vectors and scale them to the segment's depth. -/
def scaleCopyDepthsFromSourceSegments (g : Graph) (segmentNumber : Int)
    (sourceSegmentNumbers : List Int) : List ℚ × ErrVal :=
  let sourceDepths := sourceSegmentNumbers.flatMap (fun num => (cdLookup g num).getD [])
  scaleCopyDepths (getSeg g segmentNumber).depth sourceDepths

/-- The candidate assignments the loop of `merge_copy_depths` scores, in scan
order: for each unassigned segment, its exclusive-input candidate (when all
inputs are assigned) then its exclusive-output candidate. -/
def mergeCandidates (g : Graph) : List (Int × List ℚ × ErrVal) :=
  (getSegmentsWithoutCopies g).flatMap (fun segment =>
    let num := segment.number
    let exclusiveInputs := getExclusiveInputs g num
    let exclusiveOutputs := getExclusiveOutputs g num
    (if exclusiveInputs ≠ [] ∧ allHaveCopyDepths g exclusiveInputs then
      [(num, scaleCopyDepthsFromSourceSegments g num exclusiveInputs)] else []) ++
    (if exclusiveOutputs ≠ [] ∧ allHaveCopyDepths g exclusiveOutputs then
      [(num, scaleCopyDepthsFromSourceSegments g num exclusiveOutputs)] else []))

/-- The running best of the candidate scan: segment number (`None`
initially), depths, lowest error. -/
structure BestState where
  num : Option Int
  depths : List ℚ
  err : ErrVal
deriving Repr, DecidableEq

/-- `if error < lowest_error: ...` -/
def mcStep (acc : BestState) (c : Int × List ℚ × ErrVal) : BestState :=
  if ErrVal.ltB c.2.2 acc.err then ⟨some c.1, c.2.1, c.2.2⟩ else acc

/-- The `best_segment_num` / `best_new_depths` / `lowest_error` triple after
the candidate scan of `merge_copy_depths`. -/
def mergeBest (g : Graph) : BestState :=
  (mergeCandidates g).foldl mcStep ⟨none, [], .inf⟩

/-- `merge_copy_depths`: scan all candidates, and assign the best one when
its error beats the margin 1.0; returns the new graph and whether an
assignment was made.  (`if best_segment_num` is Python truthiness: `None`
and `0` both fail it.) -/
def mergeCopyDepths (g : Graph) : Graph × Bool :=
  if getSegmentsWithoutCopies g = [] then (g, false)
  else
    match (mergeBest g).num with
    | some n =>
      if n ≠ 0 ∧ ErrVal.ltB (mergeBest g).err (ErrVal.fin 1) = true then
        ({ g with copy_depths := cdSet g.copy_depths n (mergeBest g).depths }, true)
      else (g, false)
    | none => (g, false)

/- ### Generic association-list lemmas -/

/-- Key uniqueness of a link dictionary (holds for Python dicts; every
operation of the model preserves it). -/
def nodupKeys (ls : Links) : Prop := (ls.map Prod.fst).Nodup

theorem linkLookup_cons (kv : Int × List Int) (rest : Links) (u : Int) :
    linkLookup (kv :: rest) u = if kv.1 = u then some kv.2 else linkLookup rest u := by
  by_cases h : kv.1 = u
  · simp only [linkLookup, if_pos h]
    rw [List.find?_cons_of_pos _ (by simpa using h)]
    rfl
  · simp only [linkLookup, if_neg h]
    rw [List.find?_cons_of_neg _ (by simpa using h)]

theorem linkLookup_linkSet (ls : Links) (k : Int) (vs : List Int) (u : Int) :
    linkLookup (linkSet ls k vs) u = if u = k then some vs else linkLookup ls u := by
  induction ls with
  | nil =>
    by_cases h : u = k
    · simp [linkSet, linkLookup_cons, h]
    · simp [linkSet, linkLookup_cons, h, Ne.symm h, linkLookup]
  | cons kv rest ih =>
    by_cases hk : kv.1 = k
    · subst hk
      simp only [linkSet, if_pos rfl]
      by_cases h : u = kv.1
      · simp [linkLookup_cons, h]
      · simp [linkLookup_cons, h, Ne.symm h]
    · simp only [linkSet, if_neg hk]
      by_cases h : u = kv.1
      · have hne : ¬ u = k := h ▸ hk
        simp [linkLookup_cons, h, hne, hk]
      · simp [linkLookup_cons, Ne.symm h, ih]

theorem lookupD_linkSet (ls : Links) (k : Int) (vs : List Int) (u : Int) :
    lookupD (linkSet ls k vs) u = if u = k then vs else lookupD ls u := by
  unfold lookupD
  rw [linkLookup_linkSet]
  by_cases h : u = k <;> simp [h]

theorem memL_linksAdd (ls : Links) (k v u w : Int) :
    memL (linksAdd ls k v) u w ↔ memL ls u w ∨ (u = k ∧ w = v) := by
  unfold linksAdd memL
  by_cases hv : v ∈ lookupD ls k
  · rw [if_pos hv]
    constructor
    · exact Or.inl
    · rintro (h | ⟨rfl, rfl⟩)
      · exact h
      · exact hv
  · rw [if_neg hv, lookupD_linkSet]
    by_cases hu : u = k
    · subst hu
      rw [if_pos rfl]
      simp only [List.mem_append, List.mem_singleton]
      tauto
    · simp [hu]

theorem memL_linksAppend (ls : Links) (k v u w : Int) :
    memL (linksAppend ls k v) u w ↔ memL ls u w ∨ (u = k ∧ w = v) := by
  unfold linksAppend memL
  rw [lookupD_linkSet]
  by_cases hu : u = k
  · subst hu
    rw [if_pos rfl]
    simp only [List.mem_append, List.mem_singleton]
    tauto
  · simp [hu]

theorem keys_linkSet (ls : Links) (k : Int) (vs : List Int) :
    (linkSet ls k vs).map Prod.fst =
      if k ∈ ls.map Prod.fst then ls.map Prod.fst else ls.map Prod.fst ++ [k] := by
  induction ls with
  | nil => simp [linkSet]
  | cons kv rest ih =>
    by_cases hk : kv.1 = k
    · subst hk
      simp [linkSet]
    · simp only [linkSet, if_neg hk, List.map_cons, List.mem_cons]
      rw [ih]
      by_cases hmem : k ∈ rest.map Prod.fst
      · simp [hmem]
      · have h1 : ¬ (k = kv.1 ∨ k ∈ rest.map Prod.fst) := by
          rintro (h | h)
          · exact hk h.symm
          · exact hmem h
        have h2 : ¬ k = kv.1 := fun h => hk h.symm
        simp [hmem, h1, h2]

theorem nodupKeys_linkSet (ls : Links) (k : Int) (vs : List Int)
    (h : nodupKeys ls) : nodupKeys (linkSet ls k vs) := by
  unfold nodupKeys at h ⊢
  rw [keys_linkSet]
  by_cases hmem : k ∈ ls.map Prod.fst
  · simpa [hmem]
  · rw [if_neg hmem, List.nodup_append]
    exact ⟨h, List.nodup_singleton _, by simpa [List.disjoint_singleton] using hmem⟩

theorem nodupKeys_linksAdd (ls : Links) (k v : Int) (h : nodupKeys ls) :
    nodupKeys (linksAdd ls k v) := by
  unfold linksAdd
  by_cases hv : v ∈ lookupD ls k
  · rwa [if_pos hv]
  · rw [if_neg hv]
    exact nodupKeys_linkSet _ _ _ h

theorem nodupKeys_linksAppend (ls : Links) (k v : Int) (h : nodupKeys ls) :
    nodupKeys (linksAppend ls k v) :=
  nodupKeys_linkSet _ _ _ h

theorem linkLookup_eq_none (ls : Links) (u : Int) (h : u ∉ ls.map Prod.fst) :
    linkLookup ls u = none := by
  induction ls with
  | nil => rfl
  | cons kv rest ih =>
    simp only [List.map_cons, List.mem_cons, not_or] at h
    rw [linkLookup_cons, if_neg (fun hh => h.1 hh.symm)]
    exact ih h.2

theorem not_memL_of_not_key (ls : Links) (u v : Int) (h : u ∉ ls.map Prod.fst) :
    ¬ memL ls u v := by
  unfold memL lookupD
  rw [linkLookup_eq_none ls u h]
  simp

theorem linkSet_self (ls : Links) (k : Int) (vs : List Int)
    (h : linkLookup ls k = some vs) : linkSet ls k vs = ls := by
  induction ls with
  | nil => simp [linkLookup] at h
  | cons kv rest ih =>
    rw [linkLookup_cons] at h
    by_cases hk : kv.1 = k
    · rw [if_pos hk] at h
      simp only [linkSet, if_pos hk]
      cases kv
      simp only at hk h
      simp [hk, Option.some.injEq] at h
      simp [hk, h]
    · rw [if_neg hk] at h
      simp only [linkSet, if_neg hk]
      rw [ih h]

theorem linksAdd_of_mem (ls : Links) (k v : Int) (h : memL ls k v) :
    linksAdd ls k v = ls := by
  unfold linksAdd
  exact if_pos h

/-- Twin-link symmetry of a forward-link dictionary. -/
def TwinSym (fwd : Links) : Prop :=
  ∀ u v : Int, memL fwd u v ↔ memL fwd (-v) (-u)

/-- The reverse view is the transpose of the forward view. -/
def TransposeView (fwd rev : Links) : Prop :=
  ∀ u v : Int, memL fwd u v ↔ memL rev v u

/-- The link-store invariant: unique dict keys, twin symmetry, and agreement
of the two adjacency views. -/
def LinkInvariant (fwd rev : Links) : Prop :=
  nodupKeys fwd ∧ nodupKeys rev ∧ TwinSym fwd ∧ TransposeView fwd rev

/- ### `add_link` preserves the invariant -/

theorem memL_addLink_forward (g : Graph) (s e u w : Int) :
    memL (addLink g s e).forward_links u w ↔
      memL g.forward_links u w ∨ (u = s ∧ w = e) ∨ (u = -e ∧ w = -s) := by
  unfold addLink
  simp only [memL_linksAdd]
  tauto

theorem memL_addLink_reverse (g : Graph) (s e u w : Int) :
    memL (addLink g s e).reverse_links u w ↔
      memL g.reverse_links u w ∨ (u = e ∧ w = s) ∨ (u = -s ∧ w = -e) := by
  unfold addLink
  simp only [memL_linksAdd]
  tauto

theorem linkInvariant_addLink (g : Graph) (s e : Int)
    (h : LinkInvariant g.forward_links g.reverse_links) :
    LinkInvariant (addLink g s e).forward_links (addLink g s e).reverse_links := by
  obtain ⟨hf, hr, htwin, htrans⟩ := h
  refine ⟨?_, ?_, ?_, ?_⟩
  · exact nodupKeys_linksAdd _ _ _ (nodupKeys_linksAdd _ _ _ hf)
  · exact nodupKeys_linksAdd _ _ _ (nodupKeys_linksAdd _ _ _ hr)
  · intro u v
    rw [memL_addLink_forward, memL_addLink_forward, htwin u v]
    constructor
    · rintro (h | ⟨rfl, rfl⟩ | ⟨rfl, rfl⟩)
      · exact Or.inl h
      · refine Or.inr (Or.inr ⟨by ring, by ring⟩)
      · refine Or.inr (Or.inl ⟨by ring_nf, by ring_nf⟩)
    · rintro (h | ⟨h1, h2⟩ | ⟨h1, h2⟩)
      · exact Or.inl h
      · refine Or.inr (Or.inr ⟨by omega, by omega⟩)
      · refine Or.inr (Or.inl ⟨by omega, by omega⟩)
  · intro u v
    rw [memL_addLink_forward, memL_addLink_reverse, htrans u v]
    constructor
    · rintro (h | ⟨rfl, rfl⟩ | ⟨rfl, rfl⟩)
      · exact Or.inl h
      · exact Or.inr (Or.inl ⟨rfl, rfl⟩)
      · exact Or.inr (Or.inr ⟨rfl, rfl⟩)
    · rintro (h | ⟨rfl, rfl⟩ | ⟨rfl, rfl⟩)
      · exact Or.inl h
      · exact Or.inr (Or.inl ⟨rfl, rfl⟩)
      · exact Or.inr (Or.inr ⟨rfl, rfl⟩)

/- ### `remove_segments` preserves the invariant -/

theorem remove_cons (kv : Int × List Int) (rest : Links) (r : List Int) :
    remove_nums_from_links (kv :: rest) r =
      if iabs kv.1 ∈ r then remove_nums_from_links rest r
      else if kv.2.filter (fun x => iabs x ∉ r) = [] then remove_nums_from_links rest r
      else (kv.1, kv.2.filter (fun x => iabs x ∉ r)) :: remove_nums_from_links rest r := by
  simp only [remove_nums_from_links, List.filterMap_cons]
  split_ifs with h1 h2 <;> rfl

theorem keys_remove_sublist (ls : Links) (r : List Int) :
    ((remove_nums_from_links ls r).map Prod.fst).Sublist (ls.map Prod.fst) := by
  induction ls with
  | nil => simp [remove_nums_from_links]
  | cons kv rest ih =>
    rw [remove_cons]
    split_ifs with h1 h2
    · exact ih.cons _
    · exact ih.cons _
    · simpa using ih.cons₂ kv.1

theorem nodupKeys_remove (ls : Links) (r : List Int) (h : nodupKeys ls) :
    nodupKeys (remove_nums_from_links ls r) :=
  (keys_remove_sublist ls r).nodup h

theorem memL_remove (ls : Links) (r : List Int) (u v : Int) (h : nodupKeys ls) :
    memL (remove_nums_from_links ls r) u v ↔
      memL ls u v ∧ iabs u ∉ r ∧ iabs v ∉ r := by
  induction ls with
  | nil => simp [remove_nums_from_links, memL, lookupD, linkLookup]
  | cons kv rest ih =>
    have hnd : nodupKeys rest := (List.nodup_cons.mp h).2
    have hknr : kv.1 ∉ rest.map Prod.fst := (List.nodup_cons.mp h).1
    have hnomem : ∀ w, u = kv.1 → ¬ memL (remove_nums_from_links rest r) u w := by
      intro w hu
      apply not_memL_of_not_key
      intro hmem
      exact hknr (hu ▸ (keys_remove_sublist rest r).mem hmem)
    have hskip : ∀ (hu : ¬ u = kv.1), memL (kv :: rest) u v ↔ memL rest u v := by
      intro hu
      unfold memL lookupD
      rw [linkLookup_cons, if_neg (fun hh => hu hh.symm)]
    rw [remove_cons]
    split_ifs with h1 h2
    · by_cases hu : u = kv.1
      · constructor
        · intro hmem
          exact absurd hmem (hnomem v hu)
        · rintro ⟨_, hu2, _⟩
          exact absurd (hu ▸ h1) hu2
      · rw [ih hnd, hskip hu]
    · by_cases hu : u = kv.1
      · constructor
        · intro hmem
          exact absurd hmem (hnomem v hu)
        · rintro ⟨hmem, _, hv⟩
          have hvkv : v ∈ kv.2 := by
            unfold memL lookupD at hmem
            rw [linkLookup_cons, if_pos hu.symm] at hmem
            simpa using hmem
          have hvf : v ∈ kv.2.filter (fun x => iabs x ∉ r) :=
            List.mem_filter.mpr ⟨hvkv, by simpa using hv⟩
          rw [h2] at hvf
          simp at hvf
      · rw [ih hnd, hskip hu]
    · by_cases hu : u = kv.1
      · subst hu
        unfold memL lookupD
        rw [linkLookup_cons, if_pos rfl, linkLookup_cons, if_pos rfl]
        simp only [Option.getD_some, List.mem_filter]
        constructor
        · rintro ⟨hv, hv2⟩
          exact ⟨hv, h1, by simpa using hv2⟩
        · rintro ⟨hv, _, hv2⟩
          exact ⟨hv, by simpa using hv2⟩
      · unfold memL lookupD
        rw [linkLookup_cons, if_neg (fun hh => hu hh.symm),
            linkLookup_cons, if_neg (fun hh => hu hh.symm)]
        exact ih hnd

theorem iabs_neg (x : Int) : iabs (-x) = iabs x := by
  unfold iabs
  split_ifs <;> omega

theorem linkInvariant_removeSegments (g : Graph) (r : List Int)
    (h : LinkInvariant g.forward_links g.reverse_links) :
    LinkInvariant (removeSegments g r).forward_links (removeSegments g r).reverse_links := by
  obtain ⟨hf, hr, htwin, htrans⟩ := h
  refine ⟨nodupKeys_remove _ _ hf, nodupKeys_remove _ _ hr, ?_, ?_⟩
  · intro u v
    unfold removeSegments
    simp only
    rw [memL_remove _ _ _ _ hf, memL_remove _ _ _ _ hf, htwin u v, iabs_neg, iabs_neg]
    tauto
  · intro u v
    unfold removeSegments
    simp only
    rw [memL_remove _ _ _ _ hf, memL_remove _ _ _ _ hr, htrans u v]
    tauto

/- ### The remaining mutators preserve the invariant -/

theorem linkInvariant_foldl_addLink_out (g : Graph) (n : Int) (links : List Int)
    (h : LinkInvariant g.forward_links g.reverse_links) :
    LinkInvariant (links.foldl (fun h2 link => addLink h2 n link) g).forward_links
      (links.foldl (fun h2 link => addLink h2 n link) g).reverse_links := by
  induction links generalizing g with
  | nil => exact h
  | cons l rest ih => exact ih _ (linkInvariant_addLink _ _ _ h)

theorem linkInvariant_foldl_addLink_in (g : Graph) (n : Int) (links : List Int)
    (h : LinkInvariant g.forward_links g.reverse_links) :
    LinkInvariant (links.foldl (fun h2 link => addLink h2 link n) g).forward_links
      (links.foldl (fun h2 link => addLink h2 link n) g).reverse_links := by
  induction links generalizing g with
  | nil => exact h
  | cons l rest ih => exact ih _ (linkInvariant_addLink _ _ _ h)

theorem linkInvariant_segments_paths (g : Graph) (segs : List (Int × Segment))
    (paths : List (String × List Int))
    (h : LinkInvariant g.forward_links g.reverse_links) :
    LinkInvariant ({ g with segments := segs, paths := paths }).forward_links
      ({ g with segments := segs, paths := paths }).reverse_links := h

theorem linkInvariant_mergeTwoSegments (g : Graph) (n1 n2 : Int)
    (h : LinkInvariant g.forward_links g.reverse_links) :
    LinkInvariant (mergeTwoSegments g n1 n2).forward_links
      (mergeTwoSegments g n1 n2).reverse_links := by
  unfold mergeTwoSegments
  simp only
  apply linkInvariant_foldl_addLink_in
  apply linkInvariant_foldl_addLink_out
  exact linkInvariant_removeSegments _ _ h

theorem linkInvariant_filterByReadDepth (g : Graph) (r : ℚ)
    (h : LinkInvariant g.forward_links g.reverse_links) :
    LinkInvariant (filterByReadDepth g r).forward_links
      (filterByReadDepth g r).reverse_links :=
  linkInvariant_removeSegments _ _ h

theorem linkInvariant_filterHomopolymerLoops (g : Graph)
    (h : LinkInvariant g.forward_links g.reverse_links) :
    LinkInvariant (filterHomopolymerLoops g).forward_links
      (filterHomopolymerLoops g).reverse_links :=
  linkInvariant_removeSegments _ _ h

/- ### Graph construction establishes the invariant -/

theorem memL_foldl_linksAdd_twin (es : List Int) (s : Int) (acc : Links) (u v : Int) :
    memL (es.foldl (fun b e => linksAdd b (-e) (-s)) acc) u v ↔
      memL acc u v ∨ (∃ e ∈ es, u = -e ∧ v = -s) := by
  induction es generalizing acc with
  | nil => simp
  | cons e rest ih =>
    simp only [List.foldl_cons, ih, memL_linksAdd, List.mem_cons]
    constructor
    · rintro ((h | ⟨rfl, rfl⟩) | ⟨x, hx, rfl, rfl⟩)
      · exact Or.inl h
      · exact Or.inr ⟨e, Or.inl rfl, rfl, rfl⟩
      · exact Or.inr ⟨x, Or.inr hx, rfl, rfl⟩
    · rintro (h | ⟨x, (rfl | hx), rfl, rfl⟩)
      · exact Or.inl (Or.inl h)
      · exact Or.inl (Or.inr ⟨rfl, rfl⟩)
      · exact Or.inr ⟨x, hx, rfl, rfl⟩

theorem memL_build_rc (ls : Links) (u v : Int) :
    memL (build_rc_links_if_necessary ls) u v ↔
      memL ls u v ∨ ∃ kv ∈ ls, ∃ e ∈ kv.2, u = -e ∧ v = -kv.1 := by
  unfold build_rc_links_if_necessary
  suffices h : ∀ (entries : List (Int × List Int)) (acc : Links),
      memL (entries.foldl (fun a kv => kv.2.foldl (fun b e => linksAdd b (-e) (-kv.1)) a) acc) u v ↔
        memL acc u v ∨ ∃ kv ∈ entries, ∃ e ∈ kv.2, u = -e ∧ v = -kv.1 by
    exact h ls ls
  intro entries
  induction entries with
  | nil => simp
  | cons kv rest ih =>
    intro acc
    simp only [List.foldl_cons, ih, memL_foldl_linksAdd_twin, List.mem_cons]
    constructor
    · rintro ((h | ⟨e, he, rfl, rfl⟩) | ⟨kv2, hkv2, e, he, rfl, rfl⟩)
      · exact Or.inl h
      · exact Or.inr ⟨kv, Or.inl rfl, e, he, rfl, rfl⟩
      · exact Or.inr ⟨kv2, Or.inr hkv2, e, he, rfl, rfl⟩
    · rintro (h | ⟨kv2, (rfl | hkv2), e, he, rfl, rfl⟩)
      · exact Or.inl (Or.inl h)
      · exact Or.inl (Or.inr ⟨e, he, rfl, rfl⟩)
      · exact Or.inr ⟨kv2, hkv2, e, he, rfl, rfl⟩

theorem memL_foldl_linksAppend (es : List Int) (s : Int) (acc : Links) (u v : Int) :
    memL (es.foldl (fun b e => linksAppend b e s) acc) u v ↔
      memL acc u v ∨ (u ∈ es ∧ v = s) := by
  induction es generalizing acc with
  | nil => simp
  | cons e rest ih =>
    simp only [List.foldl_cons, ih, memL_linksAppend, List.mem_cons]
    tauto

theorem memL_build_reverse (ls : Links) (u v : Int) :
    memL (build_reverse_links ls) u v ↔ ∃ kv ∈ ls, u ∈ kv.2 ∧ v = kv.1 := by
  unfold build_reverse_links
  suffices h : ∀ (entries : List (Int × List Int)) (acc : Links),
      memL (entries.foldl (fun a kv => kv.2.foldl (fun b e => linksAppend b e kv.1) a) acc) u v ↔
        memL acc u v ∨ ∃ kv ∈ entries, u ∈ kv.2 ∧ v = kv.1 by
    rw [h ls []]
    simp [memL, lookupD, linkLookup]
  intro entries
  induction entries with
  | nil => simp
  | cons kv rest ih =>
    intro acc
    simp only [List.foldl_cons, ih, memL_foldl_linksAppend, List.mem_cons]
    constructor
    · rintro ((h | ⟨hu, rfl⟩) | ⟨kv2, hkv2, hu, rfl⟩)
      · exact Or.inl h
      · exact Or.inr ⟨kv, Or.inl rfl, hu, rfl⟩
      · exact Or.inr ⟨kv2, Or.inr hkv2, hu, rfl⟩
    · rintro (h | ⟨kv2, (rfl | hkv2), hu, rfl⟩)
      · exact Or.inl (Or.inl h)
      · exact Or.inl (Or.inr ⟨hu, rfl⟩)
      · exact Or.inr ⟨kv2, hkv2, hu, rfl⟩

theorem memL_iff_entry (ls : Links) (s e : Int) (h : nodupKeys ls) :
    memL ls s e ↔ ∃ kv ∈ ls, kv.1 = s ∧ e ∈ kv.2 := by
  induction ls with
  | nil => simp [memL, lookupD, linkLookup]
  | cons kv rest ih =>
    have hnd : nodupKeys rest := (List.nodup_cons.mp h).2
    have hknr : kv.1 ∉ rest.map Prod.fst := (List.nodup_cons.mp h).1
    unfold memL lookupD
    rw [linkLookup_cons]
    by_cases hs : kv.1 = s
    · rw [if_pos hs]
      simp only [Option.getD_some]
      constructor
      · intro he
        exact ⟨kv, List.mem_cons_self kv rest, hs, he⟩
      · rintro ⟨kv2, hmem2, hk1, he⟩
        rcases List.mem_cons.mp hmem2 with rfl | hkv2
        · exact he
        · have : kv.1 ∈ rest.map Prod.fst := by
            rw [hs, ← hk1]
            exact List.mem_map_of_mem Prod.fst hkv2
          exact absurd this hknr
    · rw [if_neg hs]
      rw [memL, lookupD] at ih
      rw [ih hnd]
      constructor
      · rintro ⟨kv2, hkv2, hk1, he⟩
        exact ⟨kv2, List.mem_cons_of_mem _ hkv2, hk1, he⟩
      · rintro ⟨kv2, hmem2, hk1, he⟩
        rcases List.mem_cons.mp hmem2 with rfl | hkv2
        · exact absurd hk1 hs
        · exact ⟨kv2, hkv2, hk1, he⟩

theorem nodupKeys_foldl_linksAdd_twin (es : List Int) (s : Int) (acc : Links)
    (hacc : nodupKeys acc) :
    nodupKeys (es.foldl (fun b e => linksAdd b (-e) (-s)) acc) := by
  induction es generalizing acc with
  | nil => exact hacc
  | cons e rest ih => exact ih _ (nodupKeys_linksAdd _ _ _ hacc)

theorem nodupKeys_foldl_linksAppend (es : List Int) (s : Int) (acc : Links)
    (hacc : nodupKeys acc) :
    nodupKeys (es.foldl (fun b e => linksAppend b e s) acc) := by
  induction es generalizing acc with
  | nil => exact hacc
  | cons e rest ih => exact ih _ (nodupKeys_linksAppend _ _ _ hacc)

theorem nodupKeys_build_rc (ls : Links) (h : nodupKeys ls) :
    nodupKeys (build_rc_links_if_necessary ls) := by
  unfold build_rc_links_if_necessary
  suffices hgen : ∀ (entries : List (Int × List Int)) (acc : Links), nodupKeys acc →
      nodupKeys (entries.foldl (fun a kv => kv.2.foldl (fun b e => linksAdd b (-e) (-kv.1)) a) acc) by
    exact hgen ls ls h
  intro entries
  induction entries with
  | nil => exact fun acc hacc => hacc
  | cons kv rest ih =>
    intro acc hacc
    exact ih _ (nodupKeys_foldl_linksAdd_twin kv.2 kv.1 acc hacc)

theorem nodupKeys_build_reverse (ls : Links) : nodupKeys (build_reverse_links ls) := by
  unfold build_reverse_links
  suffices hgen : ∀ (entries : List (Int × List Int)) (acc : Links), nodupKeys acc →
      nodupKeys (entries.foldl (fun a kv => kv.2.foldl (fun b e => linksAppend b e kv.1) a) acc) by
    exact hgen ls [] (by simp [nodupKeys])
  intro entries
  induction entries with
  | nil => exact fun acc hacc => hacc
  | cons kv rest ih =>
    intro acc hacc
    exact ih _ (nodupKeys_foldl_linksAppend kv.2 kv.1 acc hacc)

theorem nodupKeys_loadForwardLinks (pairs : List (Int × Int)) :
    nodupKeys (loadForwardLinks pairs) := by
  unfold loadForwardLinks
  suffices hgen : ∀ (ps : List (Int × Int)) (acc : Links), nodupKeys acc →
      nodupKeys (ps.foldl (fun a p => linksAppend a p.1 p.2) acc) by
    exact hgen pairs [] (by simp [nodupKeys])
  intro ps
  induction ps with
  | nil => exact fun acc hacc => hacc
  | cons p rest ih => exact fun acc hacc => ih _ (nodupKeys_linksAppend _ _ _ hacc)

theorem linkInvariant_load (segData : List (Int × ℚ × List Char))
    (linkData : List (Int × Int)) (paths : List (String × List Int)) (overlap : Nat) :
    LinkInvariant (loadFromGfaData segData linkData paths overlap).forward_links
      (loadFromGfaData segData linkData paths overlap).reverse_links := by
  unfold loadFromGfaData
  simp only
  set raw := loadForwardLinks linkData with hraw
  have hnd : nodupKeys raw := nodupKeys_loadForwardLinks linkData
  have hrc : nodupKeys (build_rc_links_if_necessary raw) := nodupKeys_build_rc raw hnd
  have hmem : ∀ u v, memL (build_rc_links_if_necessary raw) u v ↔
      memL raw u v ∨ memL raw (-v) (-u) := by
    intro u v
    rw [memL_build_rc]
    constructor
    · rintro (h | ⟨kv, hkv, e, he, rfl, rfl⟩)
      · exact Or.inl h
      · refine Or.inr ?_
        rw [neg_neg, neg_neg]
        exact (memL_iff_entry raw kv.1 e hnd).mpr ⟨kv, hkv, rfl, he⟩
    · rintro (h | h)
      · exact Or.inl h
      · obtain ⟨kv, hkv, hk1, he⟩ := (memL_iff_entry raw (-v) (-u) hnd).mp h
        exact Or.inr ⟨kv, hkv, -u, he, by omega, by omega⟩
  refine ⟨hrc, nodupKeys_build_reverse _, ?_, ?_⟩
  · intro u v
    rw [hmem u v, hmem (-v) (-u), neg_neg, neg_neg]
    tauto
  · intro u v
    rw [memL_build_reverse]
    rw [memL_iff_entry _ u v hrc]
    constructor
    · rintro ⟨kv, hkv, rfl, he⟩
      exact ⟨kv, hkv, he, rfl⟩
    · rintro ⟨kv, hkv, he, rfl⟩
      exact ⟨kv, hkv, rfl, he⟩

/- ### Concrete graphs used by the claims -/

/-- The empty graph (no segments or links), overlap 0. -/
def gEmpty : Graph := ⟨[], [], [], [], [], 0⟩

/-- A graph with links `1→3, 1→4, 2→3, 5→4` (plus reverse-complement twins):
ends 3 and 4 share only one start, so their junction is not four-way. -/
def gJunction : Graph := loadFromGfaData
  [(1, 1, "ACGT".toList), (2, 1, "ACGT".toList), (3, 1, "ACGT".toList),
   (4, 1, "ACGT".toList), (5, 1, "ACGT".toList)]
  [(1, 3), (1, 4), (2, 3), (5, 4)] [] 2

theorem addLink_forward_idem (g : Graph) (u v : Int) :
    (addLink (addLink g u v) u v).forward_links = (addLink g u v).forward_links := by
  have h1 : memL (addLink g u v).forward_links u v :=
    (memL_addLink_forward g u v u v).mpr (Or.inr (Or.inl ⟨rfl, rfl⟩))
  have h2 : memL (addLink g u v).forward_links (-v) (-u) :=
    (memL_addLink_forward g u v (-v) (-u)).mpr (Or.inr (Or.inr ⟨rfl, rfl⟩))
  have hA : (addLink g u v).forward_links =
      linksAdd (linksAdd g.forward_links u v) (-v) (-u) := rfl
  conv_lhs => unfold addLink
  simp only
  rw [← hA, linksAdd_of_mem _ _ _ h1, linksAdd_of_mem _ _ _ h2]

theorem addLink_reverse_idem (g : Graph) (u v : Int) :
    (addLink (addLink g u v) u v).reverse_links = (addLink g u v).reverse_links := by
  have h1 : memL (addLink g u v).reverse_links v u :=
    (memL_addLink_reverse g u v v u).mpr (Or.inr (Or.inl ⟨rfl, rfl⟩))
  have h2 : memL (addLink g u v).reverse_links (-u) (-v) :=
    (memL_addLink_reverse g u v (-u) (-v)).mpr (Or.inr (Or.inr ⟨rfl, rfl⟩))
  have hA : (addLink g u v).reverse_links =
      linksAdd (linksAdd g.reverse_links v u) (-u) (-v) := rfl
  conv_lhs => unfold addLink
  simp only
  rw [← hA, linksAdd_of_mem _ _ _ h1, linksAdd_of_mem _ _ _ h2]

/-- C1 (counterexample): twin-link symmetry is NOT an invariant of every
reachable graph state.  On the constructed graph `gJunction` (reachable: it
is the loader's output), `repair_four_way_junctions` — whose detection
discards the result of `set.union` — rewires a junction whose two ends have
different start sets, leaving `5→4` in the forward view while `reverse[4]`
no longer contains 5 and the twin `-4→-5` is gone from the forward view. -/
theorem twin_link_symmetry_cex :
    memL (repairFourWayJunctions gJunction).forward_links 5 4 ∧
    ¬ memL (repairFourWayJunctions gJunction).reverse_links 4 5 ∧
    ¬ memL (repairFourWayJunctions gJunction).forward_links (-4) (-5) := by
  decide

/-- C1 (amended): twin-link symmetry together with the transpose agreement of
the two views holds after graph construction and is preserved by `add_link`,
`remove_segments`, `merge_two_segments`, `filter_by_read_depth` and
`filter_homopolymer_loops` — every mutator of the original claim except
`repair_four_way_junctions`, which the counterexample excludes. -/
theorem twin_link_symmetry_invariant :
    (∀ (segData : List (Int × ℚ × List Char)) (linkData : List (Int × Int))
        (paths : List (String × List Int)) (overlap : Nat),
      LinkInvariant (loadFromGfaData segData linkData paths overlap).forward_links
        (loadFromGfaData segData linkData paths overlap).reverse_links) ∧
    (∀ (g : Graph) (s e : Int), LinkInvariant g.forward_links g.reverse_links →
      LinkInvariant (addLink g s e).forward_links (addLink g s e).reverse_links) ∧
    (∀ (g : Graph) (r : List Int), LinkInvariant g.forward_links g.reverse_links →
      LinkInvariant (removeSegments g r).forward_links (removeSegments g r).reverse_links) ∧
    (∀ (g : Graph) (n1 n2 : Int), LinkInvariant g.forward_links g.reverse_links →
      LinkInvariant (mergeTwoSegments g n1 n2).forward_links
        (mergeTwoSegments g n1 n2).reverse_links) ∧
    (∀ (g : Graph) (r : ℚ), LinkInvariant g.forward_links g.reverse_links →
      LinkInvariant (filterByReadDepth g r).forward_links
        (filterByReadDepth g r).reverse_links) ∧
    (∀ (g : Graph), LinkInvariant g.forward_links g.reverse_links →
      LinkInvariant (filterHomopolymerLoops g).forward_links
        (filterHomopolymerLoops g).reverse_links) :=
  ⟨linkInvariant_load, linkInvariant_addLink, linkInvariant_removeSegments,
   linkInvariant_mergeTwoSegments, linkInvariant_filterByReadDepth,
   linkInvariant_filterHomopolymerLoops⟩

/-- Witness for C1's amended theorem: instantiate it on a concrete loaded
graph and a concrete `add_link` call, discharging the invariant hypothesis
with the construction part of the theorem itself. -/
theorem twin_link_symmetry_invariant_witness :
    LinkInvariant (addLink gJunction 2 3).forward_links
      (addLink gJunction 2 3).reverse_links :=
  twin_link_symmetry_invariant.2.1 gJunction 2 3
    (twin_link_symmetry_invariant.1
      [(1, 1, "ACGT".toList), (2, 1, "ACGT".toList), (3, 1, "ACGT".toList),
       (4, 1, "ACGT".toList), (5, 1, "ACGT".toList)]
      [(1, 3), (1, 4), (2, 3), (5, 4)] [] 2)

/-- C7: `add_link(u, v)` inserts the link, its twin and both reverse-view
entries (concretely, `add_link(5, -7)` on the empty store yields
`forward = [5: [-7], 7: [-5]]` and `reverse = [-7: [5], -5: [7]]`), and a
second identical call leaves both link dictionaries unchanged. -/
theorem add_link_spec :
    (∀ (g : Graph) (u v : Int), u ≠ 0 → v ≠ 0 →
      memL (addLink g u v).forward_links u v ∧
      memL (addLink g u v).forward_links (-v) (-u) ∧
      memL (addLink g u v).reverse_links v u ∧
      memL (addLink g u v).reverse_links (-u) (-v)) ∧
    ((addLink gEmpty 5 (-7)).forward_links = [(5, [-7]), (7, [-5])] ∧
     (addLink gEmpty 5 (-7)).reverse_links = [(-7, [5]), (-5, [7])]) ∧
    (∀ (g : Graph) (u v : Int),
      (addLink (addLink g u v) u v).forward_links = (addLink g u v).forward_links ∧
      (addLink (addLink g u v) u v).reverse_links = (addLink g u v).reverse_links) := by
  refine ⟨?_, ⟨by decide, by decide⟩, fun g u v => ⟨addLink_forward_idem g u v,
    addLink_reverse_idem g u v⟩⟩
  intro g u v _ _
  refine ⟨(memL_addLink_forward g u v u v).mpr (Or.inr (Or.inl ⟨rfl, rfl⟩)),
    (memL_addLink_forward g u v (-v) (-u)).mpr (Or.inr (Or.inr ⟨rfl, rfl⟩)),
    (memL_addLink_reverse g u v v u).mpr (Or.inr (Or.inl ⟨rfl, rfl⟩)),
    (memL_addLink_reverse g u v (-u) (-v)).mpr (Or.inr (Or.inr ⟨rfl, rfl⟩))⟩

/-- Witness for C7: the membership part at the concrete call
`add_link(5, -7)`, with both non-zero hypotheses discharged. -/
theorem add_link_spec_witness :
    memL (addLink gEmpty 5 (-7)).forward_links 5 (-7) ∧
    memL (addLink gEmpty 5 (-7)).forward_links 7 (-5) ∧
    memL (addLink gEmpty 5 (-7)).reverse_links (-7) 5 ∧
    memL (addLink gEmpty 5 (-7)).reverse_links (-5) 7 :=
  add_link_spec.1 gEmpty 5 (-7) (by decide) (by decide)

/- ### C8: reverse complement involution -/

theorem complement_base_involutive :
    ∀ c ∈ forwardTable, complement_base (complement_base c) = c := by
  decide

/-- C8: `reverse_complement` is an involution on every sequence over the
extended alphabet `ATGCatgcRYSWKMryswkmBDHVbdhvNn.-?`. -/
theorem reverse_complement_involution (s : List Char)
    (h : ∀ c ∈ s, c ∈ forwardTable) :
    reverse_complement (reverse_complement s) = s := by
  unfold reverse_complement
  rw [← List.map_reverse, List.reverse_reverse, List.map_map]
  calc s.map (complement_base ∘ complement_base)
      = s.map id := List.map_congr_left (fun c hc => complement_base_involutive c (h c hc))
    _ = s := List.map_id s

/-- Witness for C8: the involution at a concrete valid sequence. -/
theorem reverse_complement_involution_witness :
    reverse_complement (reverse_complement "AcGtNn.-?RySwKmBdHv".toList) =
      "AcGtNn.-?RySwKmBdHv".toList :=
  reverse_complement_involution _ (by decide)

/- ### C9: signed-string round trip -/

theorem digit_char_roundtrip : ∀ d < 10, (Char.ofNat (48 + d)).toNat - 48 = d := by
  decide

theorem parse_foldl_map (m : List Nat) (acc : Nat) (h : ∀ d ∈ m, d < 10) :
    List.foldl (fun a c => 10 * a + (c.toNat - 48)) acc
        (m.map (fun d => Char.ofNat (48 + d))) =
      List.foldl (fun a d => 10 * a + d) acc m := by
  induction m generalizing acc with
  | nil => rfl
  | cons d t ih =>
    simp only [List.map_cons, List.foldl_cons]
    rw [digit_char_roundtrip d (h d (List.mem_cons_self d t))]
    exact ih _ (fun x hx => h x (List.mem_cons_of_mem d hx))

theorem parse_foldl_ofDigits (m : List Nat) (acc : Nat) :
    List.foldl (fun a d => 10 * a + d) acc m =
      acc * 10 ^ m.length + Nat.ofDigits 10 m.reverse := by
  induction m generalizing acc with
  | nil => simp [Nat.ofDigits]
  | cons d t ih =>
    simp only [List.foldl_cons, List.reverse_cons, ih, Nat.ofDigits_append,
      List.length_cons, List.length_reverse, Nat.ofDigits_singleton]
    ring

theorem parseNat_natToChars (n : Nat) : parseNat (natToChars n) = n := by
  by_cases h0 : n = 0
  · subst h0
    decide
  · unfold parseNat natToChars
    rw [if_neg h0, parse_foldl_map _ 0
        (fun d hd => Nat.digits_lt_base (by norm_num) (List.mem_reverse.mp hd)),
      parse_foldl_ofDigits]
    simp [Nat.ofDigits_digits]

/-- C9: `signed_string_to_int` is a left inverse of `int_to_signed_string` on
non-zero integers. -/
theorem signed_string_roundtrip (n : Int) (h : n ≠ 0) :
    signed_string_to_int (int_to_signed_string n) = n := by
  unfold int_to_signed_string signed_string_to_int get_sign_string
  by_cases hn : n ≥ 0
  · rw [if_pos hn]
    simp only [List.getLastD_concat, List.dropLast_concat, parseNat_natToChars, if_true]
    omega
  · rw [if_neg hn]
    simp only [List.getLastD_concat, List.dropLast_concat, parseNat_natToChars]
    rw [if_neg (by decide)]
    omega

/-- Witness for C9: the round trip at `-6` (with `str` producing `6-`),
discharging the non-zero hypothesis. -/
theorem signed_string_roundtrip_witness :
    signed_string_to_int (int_to_signed_string (-6)) = -6 :=
  signed_string_roundtrip (-6) (by decide)

/- ### C2: merged-segment ID -/

/-- Overlap 1; segment 1 is the longer input (compensated length 10 vs 4). -/
def gMergeId : Graph := loadFromGfaData
  [(1, 10, "AAAAAAAAAAA".toList), (2, 10, "AAAAA".toList)]
  [(1, 2)] [] 1

/-- C2 (code bug): merging `1 → 2` where segment 1 has the strictly greater
overlap-compensated length does NOT reuse segment 1's ID.  The code only
reuses an input's ID when segment 2 is strictly longer (`if seg_2_len >
seg_1_len`), so here — against its own comment "using the number of
whichever component segment is larger" and against the claim — the merged
segment gets the fresh ID `max + 1 = 3`. -/
theorem merge_two_segments_id_bug :
    (getSeg gMergeId 1).getLengthNoOverlap gMergeId.overlap = 10 ∧
    (getSeg gMergeId 2).getLengthNoOverlap gMergeId.overlap = 4 ∧
    segKeys (mergeTwoSegments gMergeId 1 2) = [3] := by
  decide

/- ### C3: the linear-merge end-to-end scenario -/

set_option maxRecDepth 8000

/-- The three-segment chain of the scenario: overlap 3, `1→2→3`. -/
def gLinear : Graph := loadFromGfaData
  [(1, 10, "AAAAA".toList), (2, 20, "AAATT".toList), (3, 30, "TTGGG".toList)]
  [(1, 2), (2, 3)] [] 3

/-- C3 (counterexample): after `merge_all_possible` the single remaining
segment's forward sequence is not `AAAAATTGGG` — that 10-base string cannot
arise, because the three 5-base segments merged over two 3-base overlaps
leave only 9 bases. -/
theorem merge_all_linear_cex :
    (mergeAllPossible gLinear).segments.map (fun kv => kv.2.forward_sequence) ≠
      ["AAAAATTGGG".toList] := by
  decide

/-- C3 (amended): `merge_all_possible` on the scenario graph leaves exactly
one segment, with depth 20 and no forward or reverse links, as claimed — but
its forward sequence is `CCAATTTTT` (the second merge runs along the reverse
strand, `-3 → -4`), whose reverse complement is the 9-base `AAAAATTGG`. -/
theorem merge_all_linear_spec :
    (mergeAllPossible gLinear).segments.map
        (fun kv => (kv.1, kv.2.forward_sequence)) = [(4, "CCAATTTTT".toList)] ∧
    (mergeAllPossible gLinear).segments.map (fun kv => kv.2.depth) = [20] ∧
    (mergeAllPossible gLinear).forward_links = [] ∧
    (mergeAllPossible gLinear).reverse_links = [] ∧
    reverse_complement "CCAATTTTT".toList = "AAAAATTGG".toList := by
  refine ⟨by decide, ?_, by decide, by decide, by decide⟩
  -- The merged depth, read off symbolically: the second merge mixes segment
  -- 3 (depth 30, compensated length 2) with the first merge's product
  -- (depth 15, compensated length 4); `norm_num` evaluates it to 20.
  have hD : (mergeAllPossible gLinear).segments.map (fun kv => kv.2.depth) =
      [30 * (((2 : Int) : ℚ) / ((6 : Int) : ℚ)) +
        (10 * (((2 : Int) : ℚ) / ((4 : Int) : ℚ)) +
          20 * (((2 : Int) : ℚ) / ((4 : Int) : ℚ))) *
          (((4 : Int) : ℚ) / ((6 : Int) : ℚ))] := rfl
  rw [hD]
  norm_num

/- ### C4: four-way junction detection -/

/-- C4 (code bug): on `gJunction` the junction seen from segment 1 has
`forward[1] = [3, 4]` but different start sets `reverse[3] = [1, 2]` and
`reverse[4] = [1, 5]`; the claim says no bridge may be inserted there, yet
`repair_four_way_junctions` — `starting_segs.union(...)` discards its
result, so the second end's starts are never checked — inserts the bridging
segment 6 and rewires the junction around it. -/
theorem four_way_junction_bug :
    lookupD gJunction.forward_links 1 = [3, 4] ∧
    lookupD gJunction.reverse_links 3 = [1, 2] ∧
    lookupD gJunction.reverse_links 4 = [1, 5] ∧
    segKeys (repairFourWayJunctions gJunction) = [1, 2, 3, 4, 5, 6] ∧
    lookupD (repairFourWayJunctions gJunction).forward_links 6 = [3, 4] ∧
    lookupD (repairFourWayJunctions gJunction).forward_links 1 = [6] := by
  refine ⟨by decide, by decide, by decide, by decide, by decide, by decide⟩

/- ### C10: the `KeyError` branch of `deleting_would_create_dead_end` -/

/-- The per-segment removal decision of `filter_by_read_depth` with Python's
partial dict accesses tracked: the source evaluates the three-way `or`
left-to-right, so `deleting_would_create_dead_end` runs only when the
segment's dead-end count is 0; `none` marks a would-be `KeyError`. -/
def removalCondOpt (g : Graph) (wholeCutoff compCutoff : ℚ) (component : List Int)
    (num : Int) : Option Bool :=
  let segment := getSeg g num
  if segment.depth < wholeCutoff ∨ segment.depth < compCutoff then
    if deadEndCount g num > 0 then some true
    else if allSegmentsBelowDepth g component wholeCutoff then some true
    else (deletingWouldCreateDeadEndOpt g num).map (fun b => !b)
  else some false

theorem isSome_of_memL (ls : Links) (u v : Int) (h : memL ls u v) :
    (linkLookup ls u).isSome := by
  unfold memL lookupD at h
  cases hl : linkLookup ls u with
  | none => rw [hl] at h; simp at h
  | some l => simp

theorem scanNeighbors_total (ls : Links) (xs : List Int)
    (h : ∀ x ∈ xs, (linkLookup ls x).isSome) :
    scanNeighbors ls xs = some (xs.any (fun d => (lookupD ls d).length == 1)) := by
  induction xs with
  | nil => rfl
  | cons d rest ih =>
    have hd := h d (List.mem_cons_self d rest)
    cases hl : linkLookup ls d with
    | none => rw [hl] at hd; simp at hd
    | some l =>
      unfold scanNeighbors
      rw [hl]
      change (if l.length = 1 then some true else scanNeighbors ls rest) = _
      by_cases h1 : l.length = 1
      · rw [if_pos h1]
        have : (lookupD ls d).length == 1 := by
          unfold lookupD
          rw [hl]
          simpa using h1
        simp [this]
      · rw [if_neg h1]
        have hfalse : ((lookupD ls d).length == 1) = false := by
          unfold lookupD
          rw [hl]
          simpa using h1
        rw [ih (fun x hx => h x (List.mem_cons_of_mem d hx))]
        simp [hfalse]

theorem deadEndCount_zero_keys (g : Graph) (num : Int)
    (h : deadEndCount g num = 0) :
    (linkLookup g.forward_links num).isSome ∧ (linkLookup g.reverse_links num).isSome := by
  unfold deadEndCount at h
  constructor
  · cases hf : linkLookup g.forward_links num with
    | none => rw [hf] at h; simp at h
    | some _ => simp
  · cases hr : linkLookup g.reverse_links num with
    | none => rw [hr] at h; simp at h
    | some _ => simp

theorem deletingWouldCreateDeadEndOpt_total (g : Graph) (num : Int)
    (htrans : TransposeView g.forward_links g.reverse_links)
    (hdead : deadEndCount g num = 0) :
    deletingWouldCreateDeadEndOpt g num = some (deletingWouldCreateDeadEnd g num) := by
  obtain ⟨hf, hr⟩ := deadEndCount_zero_keys g num hdead
  cases hfl : linkLookup g.forward_links num with
  | none => rw [hfl] at hf; simp at hf
  | some ds =>
    cases hrl : linkLookup g.reverse_links num with
    | none => rw [hrl] at hr; simp at hr
    | some us =>
      have hds : ∀ d ∈ ds, (linkLookup g.reverse_links d).isSome := by
        intro d hd
        have hmem : memL g.forward_links num d := by
          unfold memL lookupD
          rw [hfl]
          simpa using hd
        exact isSome_of_memL _ _ _ ((htrans num d).mp hmem)
      have hus : ∀ u ∈ us, (linkLookup g.forward_links u).isSome := by
        intro u hu
        have hmem : memL g.reverse_links num u := by
          unfold memL lookupD
          rw [hrl]
          simpa using hu
        exact isSome_of_memL _ _ _ ((htrans u num).mpr hmem)
      have hlookf : lookupD g.forward_links num = ds := by
        unfold lookupD
        rw [hfl]
        rfl
      have hlookr : lookupD g.reverse_links num = us := by
        unfold lookupD
        rw [hrl]
        rfl
      unfold deletingWouldCreateDeadEndOpt deletingWouldCreateDeadEnd
      rw [hfl, hlookf, hlookr]
      change (match scanNeighbors g.reverse_links ds with
        | none => none
        | some true => some true
        | some false =>
          match linkLookup g.reverse_links num with
          | none => none
          | some us2 => scanNeighbors g.forward_links us2) = _
      rw [scanNeighbors_total _ _ hds, hrl]
      by_cases hA : ds.any (fun d => (lookupD g.reverse_links d).length == 1)
      · rw [hA]
        simp [hA]
      · simp only [Bool.not_eq_true] at hA
        rw [hA]
        change scanNeighbors g.forward_links us = _
        rw [scanNeighbors_total _ _ hus]
        simp [hA]

/-- C10: under the transpose agreement of the two link views, the removal
decision of `filter_by_read_depth` never reaches a missing-key lookup: the
`Option`-tracked decision equals `some` of the total decision the model's
`filter_by_read_depth` uses, for every segment and cutoffs.  (The dead-end
test short-circuits the `or`, so `deleting_would_create_dead_end` only runs
with dead-end count 0, and then twin symmetry supplies every key.) -/
theorem deleting_dead_end_lookups_safe (g : Graph) (wholeCutoff compCutoff : ℚ)
    (component : List Int) (num : Int)
    (htrans : TransposeView g.forward_links g.reverse_links) :
    removalCondOpt g wholeCutoff compCutoff component num =
      some (removalCondB g wholeCutoff compCutoff component num) := by
  unfold removalCondOpt removalCondB
  by_cases hbelow : (getSeg g num).depth < wholeCutoff ∨ (getSeg g num).depth < compCutoff
  · rw [if_pos hbelow]
    have hbb : (decide ((getSeg g num).depth < wholeCutoff) ||
        decide ((getSeg g num).depth < compCutoff)) = true := by
      rcases hbelow with h | h <;> simp [h]
    simp only [hbb, Bool.true_and]
    by_cases hdead : deadEndCount g num > 0
    · rw [if_pos hdead]
      simp [hdead]
    · rw [if_neg hdead]
      have hdz : deadEndCount g num = 0 := by omega
      have hdec : decide (deadEndCount g num > 0) = false := by simp [hdz]
      by_cases hall : allSegmentsBelowDepth g component wholeCutoff = true
      · rw [if_pos hall]
        simp [hall, hdec]
      · rw [if_neg hall]
        have hallf : allSegmentsBelowDepth g component wholeCutoff = false :=
          Bool.eq_false_iff.mpr hall
        rw [deletingWouldCreateDeadEndOpt_total g num htrans hdz]
        simp [hallf, hdec]
  · rw [if_neg hbelow]
    have hbb : (decide ((getSeg g num).depth < wholeCutoff) ||
        decide ((getSeg g num).depth < compCutoff)) = false := by
      push_neg at hbelow
      simp [hbelow.1, hbelow.2]
    simp only [hbb, Bool.false_and]

/-- A two-segment cycle `1→2→1`: both segments have dead-end count 0. -/
def gChain : Graph := loadFromGfaData
  [(1, 5, "AAAA".toList), (2, 1, "CCCC".toList)]
  [(1, 2), (2, 1)] [] 0

/-- Witness for C10: the lookup-safety equation at a concrete graph and
segment, the transpose hypothesis discharged by the construction lemma. -/
theorem deleting_dead_end_lookups_safe_witness :
    removalCondOpt gChain 1 1 [1, 2] 1 = some (removalCondB gChain 1 1 [1, 2] 1) :=
  deleting_dead_end_lookups_safe gChain 1 1 [1, 2] 1
    (linkInvariant_load
      [(1, 5, "AAAA".toList), (2, 1, "CCCC".toList)] [(1, 2), (2, 1)] [] 0).2.2.2

/- ### C6: `merge_copy_depths` -/

theorem ErrVal.ltB_irrefl (a : ErrVal) : ErrVal.ltB a a = false := by
  cases a <;> simp [ErrVal.ltB]

theorem ErrVal.ltB_trans {a b c : ErrVal} (h1 : ErrVal.ltB a b = true)
    (h2 : ErrVal.ltB b c = true) : ErrVal.ltB a c = true := by
  cases a <;> cases b <;> cases c <;> simp_all [ErrVal.ltB] <;> linarith

theorem ErrVal.ltB_false_trans {a b c : ErrVal} (h1 : ErrVal.ltB b a = false)
    (h2 : ErrVal.ltB c b = false) : ErrVal.ltB c a = false := by
  cases a <;> cases b <;> cases c <;> simp_all [ErrVal.ltB] <;> linarith

theorem ErrVal.not_lt_of_lt_of_not_lt {a b c : ErrVal} (h1 : ErrVal.ltB a b = true)
    (h2 : ErrVal.ltB a c = false) : ErrVal.ltB b c = false := by
  by_contra hcon
  rw [Bool.not_eq_false] at hcon
  rw [ErrVal.ltB_trans h1 hcon] at h2
  exact absurd h2 (by simp)

theorem foldl_mcStep_spec (l : List (Int × List ℚ × ErrVal)) (s0 : BestState) :
    ((l.foldl mcStep s0) = s0 ∨
      ∃ c ∈ l, (l.foldl mcStep s0) = ⟨some c.1, c.2.1, c.2.2⟩) ∧
    ErrVal.ltB s0.err (l.foldl mcStep s0).err = false ∧
    ∀ c ∈ l, ErrVal.ltB c.2.2 (l.foldl mcStep s0).err = false := by
  induction l generalizing s0 with
  | nil =>
    refine ⟨Or.inl rfl, ErrVal.ltB_irrefl _, ?_⟩
    intro c hc
    simp at hc
  | cons c t ih =>
    simp only [List.foldl_cons]
    obtain ⟨ihA, ihB, ihC⟩ := ih (mcStep s0 c)
    by_cases h : ErrVal.ltB c.2.2 s0.err = true
    · have hs1 : mcStep s0 c = ⟨some c.1, c.2.1, c.2.2⟩ := by
        unfold mcStep
        rw [if_pos h]
      rw [hs1] at ihA ihB ihC
      rw [hs1]
      refine ⟨?_, ?_, ?_⟩
      · rcases ihA with h1 | ⟨c2, hc2, h2⟩
        · exact Or.inr ⟨c, List.mem_cons_self c t, h1⟩
        · exact Or.inr ⟨c2, List.mem_cons_of_mem c hc2, h2⟩
      · exact ErrVal.not_lt_of_lt_of_not_lt h ihB
      · intro c2 hc2
        rcases List.mem_cons.mp hc2 with rfl | hc2t
        · exact ihB
        · exact ihC c2 hc2t
    · have hfalse : ErrVal.ltB c.2.2 s0.err = false := Bool.eq_false_iff.mpr h
      have hs1 : mcStep s0 c = s0 := by
        unfold mcStep
        rw [if_neg (by simp [hfalse])]
      rw [hs1] at ihA ihB ihC
      rw [hs1]
      refine ⟨?_, ihB, ?_⟩
      · rcases ihA with h1 | ⟨c2, hc2, h2⟩
        · exact Or.inl h1
        · exact Or.inr ⟨c2, List.mem_cons_of_mem c hc2, h2⟩
      · intro c2 hc2
        rcases List.mem_cons.mp hc2 with rfl | hc2t
        · exact ErrVal.ltB_false_trans ihB hfalse
        · exact ihC c2 hc2t

theorem mergeCandidates_mem (g : Graph) (n : Int) (d : List ℚ) (e : ErrVal)
    (h : (n, d, e) ∈ mergeCandidates g) :
    (∃ seg ∈ g.segments.map Prod.snd, seg.number = n) ∧
    cdLookup g n = none ∧
    ∃ srcs, (srcs = getExclusiveInputs g n ∨ srcs = getExclusiveOutputs g n) ∧
      srcs ≠ [] ∧ allHaveCopyDepths g srcs = true ∧
      (d, e) = scaleCopyDepthsFromSourceSegments g n srcs := by
  unfold mergeCandidates at h
  rw [List.mem_flatMap] at h
  obtain ⟨seg, hseg, hmem⟩ := h
  have hseg2 : seg ∈ g.segments.map Prod.snd ∧ (cdLookup g seg.number).isNone := by
    have := List.mem_filter.mp hseg
    exact ⟨this.1, by simpa using this.2⟩
  rw [List.mem_append] at hmem
  have hgoal : seg.number = n ∧
      ∃ srcs, (srcs = getExclusiveInputs g seg.number ∨
          srcs = getExclusiveOutputs g seg.number) ∧
        srcs ≠ [] ∧ allHaveCopyDepths g srcs = true ∧
        (d, e) = scaleCopyDepthsFromSourceSegments g seg.number srcs := by
    rcases hmem with hin | hout
    · by_cases hc : getExclusiveInputs g seg.number ≠ [] ∧
          allHaveCopyDepths g (getExclusiveInputs g seg.number) = true
      · rw [if_pos hc] at hin
        rw [List.mem_singleton] at hin
        have h1 : seg.number = n := (congrArg Prod.fst hin).symm
        have hde : (d, e) = scaleCopyDepthsFromSourceSegments g seg.number
            (getExclusiveInputs g seg.number) := congrArg Prod.snd hin
        exact ⟨h1, getExclusiveInputs g seg.number, Or.inl rfl, hc.1, hc.2, hde⟩
      · rw [if_neg hc] at hin
        simp at hin
    · by_cases hc : getExclusiveOutputs g seg.number ≠ [] ∧
          allHaveCopyDepths g (getExclusiveOutputs g seg.number) = true
      · rw [if_pos hc] at hout
        rw [List.mem_singleton] at hout
        have h1 : seg.number = n := (congrArg Prod.fst hout).symm
        have hde : (d, e) = scaleCopyDepthsFromSourceSegments g seg.number
            (getExclusiveOutputs g seg.number) := congrArg Prod.snd hout
        exact ⟨h1, getExclusiveOutputs g seg.number, Or.inr rfl, hc.1, hc.2, hde⟩
      · rw [if_neg hc] at hout
        simp at hout
  obtain ⟨hn, hsrcs⟩ := hgoal
  rw [hn] at hsrcs
  refine ⟨⟨seg, hseg2.1, hn⟩, ?_, hsrcs⟩
  rw [← hn]
  exact Option.isNone_iff_eq_none.mp hseg2.2

theorem mergeCopyDepths_eval_none (g : Graph) (hne : getSegmentsWithoutCopies g ≠ [])
    (hnum : (mergeBest g).num = none) : mergeCopyDepths g = (g, false) := by
  unfold mergeCopyDepths
  rw [if_neg hne, hnum]

theorem mergeCopyDepths_eval_some (g : Graph) (hne : getSegmentsWithoutCopies g ≠ [])
    (n : Int) (hnum : (mergeBest g).num = some n) :
    mergeCopyDepths g =
      (if n ≠ 0 ∧ ErrVal.ltB (mergeBest g).err (ErrVal.fin 1) = true then
        ({ g with copy_depths := cdSet g.copy_depths n (mergeBest g).depths }, true)
      else (g, false)) := by
  unfold mergeCopyDepths
  rw [if_neg hne, hnum]

/-- C6: each invocation of `merge_copy_depths` either changes nothing and
reports no assignment, or assigns copy depths to exactly one segment: an
unassigned segment `n` whose exclusive inputs (or, separately, exclusive
outputs) are non-empty and all assigned; the chosen candidate's error — from
`scale_copy_depths`, which scales the concatenated source vectors `D` by
`depth(n)/Σ(D)` and sorts them descending — is at most every candidate's
error, and the assignment happens only when that error is strictly below
the margin 1.0. -/
theorem merge_copy_depths_spec (g : Graph) :
    ((mergeCopyDepths g).1 = g ∧ (mergeCopyDepths g).2 = false) ∨
    (∃ n srcs,
      cdLookup g n = none ∧
      (∃ seg ∈ g.segments.map Prod.snd, seg.number = n) ∧
      (srcs = getExclusiveInputs g n ∨ srcs = getExclusiveOutputs g n) ∧
      srcs ≠ [] ∧ allHaveCopyDepths g srcs = true ∧
      ErrVal.ltB (scaleCopyDepthsFromSourceSegments g n srcs).2 (ErrVal.fin 1) = true ∧
      (∀ c ∈ mergeCandidates g,
        ErrVal.ltB c.2.2 (scaleCopyDepthsFromSourceSegments g n srcs).2 = false) ∧
      (mergeCopyDepths g).1 =
        { g with copy_depths :=
            cdSet g.copy_depths n (scaleCopyDepthsFromSourceSegments g n srcs).1 } ∧
      (mergeCopyDepths g).2 = true) := by
  by_cases hempty : getSegmentsWithoutCopies g = []
  · left
    unfold mergeCopyDepths
    rw [if_pos hempty]
    exact ⟨rfl, rfl⟩
  · obtain ⟨hA, hB, hC⟩ := foldl_mcStep_spec (mergeCandidates g) ⟨none, [], .inf⟩
    rw [show (mergeCandidates g).foldl mcStep ⟨none, [], .inf⟩ = mergeBest g from rfl]
      at hA hB hC
    cases hnum : (mergeBest g).num with
    | none =>
      left
      rw [mergeCopyDepths_eval_none g hempty hnum]
      exact ⟨rfl, rfl⟩
    | some n =>
      have hval0 := mergeCopyDepths_eval_some g hempty n hnum
      by_cases hcond : n ≠ 0 ∧ ErrVal.ltB (mergeBest g).err (ErrVal.fin 1) = true
      · right
        rw [if_pos hcond] at hval0
        rcases hA with hinit | ⟨c, hcl, hceq⟩
        · rw [hinit] at hnum
          simp at hnum
        · have hc1 : c.1 = n := by
            rw [hceq] at hnum
            simpa using hnum
          have hcmem : (c.1, c.2.1, c.2.2) ∈ mergeCandidates g := hcl
          obtain ⟨hsegex, hnone, srcs, hside, hne2, hall, hde⟩ :=
            mergeCandidates_mem g c.1 c.2.1 c.2.2 hcmem
          have hd : c.2.1 = (scaleCopyDepthsFromSourceSegments g c.1 srcs).1 :=
            congrArg Prod.fst hde
          have he : c.2.2 = (scaleCopyDepthsFromSourceSegments g c.1 srcs).2 :=
            congrArg Prod.snd hde
          have herr : (mergeBest g).err = c.2.2 := by rw [hceq]
          have hdep : (mergeBest g).depths = c.2.1 := by rw [hceq]
          refine ⟨c.1, srcs, hnone, hsegex, hside, hne2, hall, ?_, ?_, ?_, ?_⟩
          · rw [← he, ← herr]
            exact hcond.2
          · intro c2 hc2
            rw [← he, ← herr]
            exact hC c2 hc2
          · rw [hval0, ← hc1, ← hd, ← hdep]
          · rw [hval0]
      · left
        rw [if_neg hcond] at hval0
        rw [hval0]
        exact ⟨rfl, rfl⟩

/- ### C5: `filter_by_read_depth` -/

theorem dedupKeepFirst_mem (xs : List Int) (x : Int) :
    x ∈ dedupKeepFirst xs ↔ x ∈ xs := by
  unfold dedupKeepFirst
  suffices h : ∀ (ys acc : List Int),
      x ∈ ys.foldl (fun a y => if y ∈ a then a else a ++ [y]) acc ↔ x ∈ acc ∨ x ∈ ys by
    rw [h xs []]
    simp
  intro ys
  induction ys with
  | nil => simp
  | cons y t ih =>
    intro acc
    simp only [List.foldl_cons]
    by_cases hy : y ∈ acc
    · rw [if_pos hy, ih]
      constructor
      · rintro (h | h)
        · exact Or.inl h
        · exact Or.inr (List.mem_cons_of_mem y h)
      · rintro (h | h)
        · exact Or.inl h
        · rcases List.mem_cons.mp h with rfl | ht
          · exact Or.inl hy
          · exact Or.inr ht
    · rw [if_neg hy, ih]
      simp only [List.mem_append, List.mem_singleton, List.mem_cons]
      tauto

theorem mem_lookupD_entry (ls : Links) (w v : Int) (h : v ∈ lookupD ls w) :
    ∃ kv ∈ ls, v ∈ kv.2 := by
  unfold lookupD linkLookup at h
  cases hf : ls.find? (fun kv => kv.1 == w) with
  | none => rw [hf] at h; simp at h
  | some kv =>
    rw [hf] at h
    exact ⟨kv, List.mem_of_find?_eq_some hf, by simpa using h⟩

theorem connected_subset_allNodes (g : Graph) (w k : Int)
    (hk : k ∈ getConnectedSegments g w) : k ∈ allNodes g := by
  unfold getConnectedSegments at hk
  rw [dedupKeepFirst_mem] at hk
  unfold allNodes
  rcases List.mem_append.mp hk with hf | hr
  · obtain ⟨v, hv, rfl⟩ := List.mem_map.mp hf
    obtain ⟨kv, hkv, hvm⟩ := mem_lookupD_entry _ _ _ hv
    refine List.mem_append.mpr (Or.inl (List.mem_append.mpr (Or.inr ?_)))
    rw [List.mem_flatMap]
    exact ⟨kv, hkv, List.mem_map_of_mem iabs hvm⟩
  · obtain ⟨v, hv, rfl⟩ := List.mem_map.mp hr
    obtain ⟨kv, hkv, hvm⟩ := mem_lookupD_entry _ _ _ hv
    refine List.mem_append.mpr (Or.inr ?_)
    rw [List.mem_flatMap]
    exact ⟨kv, hkv, List.mem_map_of_mem iabs hvm⟩

theorem nodup_subset_length (d S : List Int) (hnd : d.Nodup)
    (hsub : ∀ x ∈ d, x ∈ S) : d.length ≤ S.length := by
  calc d.length = d.toFinset.card := (List.toFinset_card_of_nodup hnd).symm
    _ ≤ S.toFinset.card := Finset.card_le_card (fun x hx =>
        List.mem_toFinset.mpr (hsub x (List.mem_toFinset.mp hx)))
    _ ≤ S.length := List.toFinset_card_le S

theorem enqueueNew_spec (ks : List Int) : ∀ (q visited : List Int),
    ∃ new, enqueueNew ks (q, visited) = (q ++ new, visited ++ new) ∧
      (∀ x ∈ new, x ∈ ks) ∧
      (visited.Nodup → (visited ++ new).Nodup) := by
  induction ks with
  | nil =>
    intro q visited
    exact ⟨[], by simp [enqueueNew], by simp, by simp⟩
  | cons k t ih =>
    intro q visited
    unfold enqueueNew
    by_cases hk : k ∈ visited
    · rw [if_pos hk]
      obtain ⟨new, h1, h2, h3⟩ := ih q visited
      exact ⟨new, h1, fun x hx => List.mem_cons_of_mem k (h2 x hx), h3⟩
    · rw [if_neg hk]
      obtain ⟨new, h1, h2, h3⟩ := ih (q ++ [k]) (visited ++ [k])
      refine ⟨k :: new, ?_, ?_, ?_⟩
      · rw [h1]
        simp
      · intro x hx
        rcases List.mem_cons.mp hx with rfl | hxn
        · exact List.mem_cons_self x t
        · exact List.mem_cons_of_mem k (h2 x hxn)
      · intro hnd
        have hnd1 : (visited ++ [k]).Nodup := by
          rw [List.nodup_append]
          exact ⟨hnd, List.nodup_singleton k, by simpa [List.disjoint_singleton] using hk⟩
        have := h3 hnd1
        simpa using this

theorem bfsAux_spec (g : Graph) (base : List Int) :
    ∀ (fuel : Nat) (q visited comp : List Int),
      visited.Nodup →
      (∀ x ∈ visited, x ∈ allNodes g) →
      (∀ x ∈ q, x ∈ visited) →
      visited.Perm (base ++ comp ++ q) →
      q.length + (allNodes g).length ≤ fuel + visited.length →
      (bfsAux g fuel q visited comp).2.Nodup ∧
      (∀ x ∈ (bfsAux g fuel q visited comp).2, x ∈ allNodes g) ∧
      (bfsAux g fuel q visited comp).2.Perm
        (base ++ (bfsAux g fuel q visited comp).1) ∧
      (∀ x ∈ visited, x ∈ (bfsAux g fuel q visited comp).2) := by
  intro fuel
  induction fuel with
  | zero =>
    intro q visited comp hnd hsub hq hperm hfuel
    have hbound : visited.length ≤ (allNodes g).length :=
      nodup_subset_length visited (allNodes g) hnd hsub
    have hq0 : q = [] := by
      have : q.length = 0 := by omega
      exact List.length_eq_zero.mp this
    subst hq0
    rw [List.append_nil] at hperm
    exact ⟨hnd, hsub, hperm, fun x hx => hx⟩
  | succ fuel ih =>
    intro q visited comp hnd hsub hq hperm hfuel
    cases q with
    | nil =>
      rw [List.append_nil] at hperm
      exact ⟨hnd, hsub, hperm, fun x hx => hx⟩
    | cons w q2 =>
      obtain ⟨new, h1, h2, h3⟩ := enqueueNew_spec (getConnectedSegments g w) q2 visited
      have hstep : bfsAux g (fuel + 1) (w :: q2) visited comp =
          bfsAux g fuel (q2 ++ new) (visited ++ new) (comp ++ [w]) := by
        simp only [bfsAux]
        rw [h1]
      rw [hstep]
      have hnd2 : (visited ++ new).Nodup := h3 hnd
      have hsub2 : ∀ x ∈ visited ++ new, x ∈ allNodes g := by
        intro x hx
        rcases List.mem_append.mp hx with hxv | hxn
        · exact hsub x hxv
        · exact connected_subset_allNodes g w x (h2 x hxn)
      have hq2 : ∀ x ∈ q2 ++ new, x ∈ visited ++ new := by
        intro x hx
        rcases List.mem_append.mp hx with hxq | hxn
        · exact List.mem_append.mpr (Or.inl (hq x (List.mem_cons_of_mem w hxq)))
        · exact List.mem_append.mpr (Or.inr hxn)
      have hperm2 : (visited ++ new).Perm (base ++ (comp ++ [w]) ++ (q2 ++ new)) := by
        have hp := hperm.append_right new
        have heq : (base ++ comp ++ (w :: q2)) ++ new =
            base ++ (comp ++ [w]) ++ (q2 ++ new) := by
          simp
        rw [heq] at hp
        exact hp
      have hfuel2 : (q2 ++ new).length + (allNodes g).length ≤
          fuel + (visited ++ new).length := by
        rw [List.length_append, List.length_append]
        have hl : (w :: q2).length = q2.length + 1 := by simp
        rw [hl] at hfuel
        omega
      obtain ⟨c1, c2, c3, c4⟩ := ih (q2 ++ new) (visited ++ new) (comp ++ [w])
        hnd2 hsub2 hq2 hperm2 hfuel2
      refine ⟨c1, c2, c3, ?_⟩
      intro x hx
      exact c4 x (List.mem_append.mpr (Or.inl hx))

theorem segKey_mem_allNodes (g : Graph) (kv : Int × Segment)
    (h : kv ∈ g.segments) : kv.1 ∈ allNodes g := by
  unfold allNodes
  refine List.mem_append.mpr (Or.inl (List.mem_append.mpr (Or.inl ?_)))
  exact List.mem_map_of_mem Prod.fst h

theorem ccFold_spec (g : Graph) : ∀ (entries : List (Int × Segment))
    (acc : List (List Int) × List Int),
    (∀ kv ∈ entries, kv.1 ∈ allNodes g) →
    acc.2.Nodup →
    (∀ x ∈ acc.2, x ∈ allNodes g) →
    acc.2.Perm (acc.1.flatMap id) →
    (entries.foldl (ccStep g) acc).2.Nodup ∧
    (∀ x ∈ (entries.foldl (ccStep g) acc).2, x ∈ allNodes g) ∧
    (entries.foldl (ccStep g) acc).2.Perm
      ((entries.foldl (ccStep g) acc).1.flatMap id) ∧
    (∀ x ∈ acc.2, x ∈ (entries.foldl (ccStep g) acc).2) ∧
    (∀ kv ∈ entries, kv.1 ∈ (entries.foldl (ccStep g) acc).2) := by
  intro entries
  induction entries with
  | nil =>
    intro acc _ hnd hsub hperm
    refine ⟨hnd, hsub, hperm, fun x hx => hx, ?_⟩
    intro kv hkv
    simp at hkv
  | cons kv t ih =>
    intro acc hent hnd hsub hperm
    simp only [List.foldl_cons]
    by_cases hin : kv.1 ∈ acc.2
    · have hstep : ccStep g acc kv = acc := by
        unfold ccStep
        rw [if_pos hin]
      rw [hstep]
      obtain ⟨c1, c2, c3, c4, c5⟩ := ih acc
        (fun kv2 hkv2 => hent kv2 (List.mem_cons_of_mem kv hkv2)) hnd hsub hperm
      refine ⟨c1, c2, c3, c4, ?_⟩
      intro kv2 hkv2
      rcases List.mem_cons.mp hkv2 with rfl | hkv2t
      · exact c4 kv2.1 hin
      · exact c5 kv2 hkv2t
    · have hstep : ccStep g acc kv =
          (acc.1 ++ [(bfsAux g (bfsFuel g) [kv.1] (acc.2 ++ [kv.1]) []).1],
           (bfsAux g (bfsFuel g) [kv.1] (acc.2 ++ [kv.1]) []).2) := by
        unfold ccStep
        rw [if_neg hin]
      have hkN : kv.1 ∈ allNodes g := hent kv (List.mem_cons_self kv t)
      have hnd1 : (acc.2 ++ [kv.1]).Nodup := by
        rw [List.nodup_append]
        exact ⟨hnd, List.nodup_singleton _, by simpa [List.disjoint_singleton] using hin⟩
      have hsub1 : ∀ x ∈ acc.2 ++ [kv.1], x ∈ allNodes g := by
        intro x hx
        rcases List.mem_append.mp hx with hxa | hxk
        · exact hsub x hxa
        · rw [List.mem_singleton] at hxk
          exact hxk ▸ hkN
      have hq1 : ∀ x ∈ [kv.1], x ∈ acc.2 ++ [kv.1] := by
        intro x hx
        exact List.mem_append.mpr (Or.inr hx)
      have hperm1 : (acc.2 ++ [kv.1]).Perm ((acc.1.flatMap id) ++ [] ++ [kv.1]) := by
        have hp := hperm.append_right [kv.1]
        simpa using hp
      have hfuel1 : ([kv.1] : List Int).length + (allNodes g).length ≤
          bfsFuel g + (acc.2 ++ [kv.1]).length := by
        unfold bfsFuel
        simp
        omega
      obtain ⟨b1, b2, b3, b4⟩ := bfsAux_spec g (acc.1.flatMap id) (bfsFuel g)
        [kv.1] (acc.2 ++ [kv.1]) [] hnd1 hsub1 hq1 hperm1 hfuel1
      rw [hstep]
      have hperm2 : (bfsAux g (bfsFuel g) [kv.1] (acc.2 ++ [kv.1]) []).2.Perm
          ((acc.1 ++ [(bfsAux g (bfsFuel g) [kv.1] (acc.2 ++ [kv.1]) []).1]).flatMap id) := by
        rw [List.flatMap_append]
        simpa using b3
      obtain ⟨c1, c2, c3, c4, c5⟩ := ih
        (acc.1 ++ [(bfsAux g (bfsFuel g) [kv.1] (acc.2 ++ [kv.1]) []).1],
         (bfsAux g (bfsFuel g) [kv.1] (acc.2 ++ [kv.1]) []).2)
        (fun kv2 hkv2 => hent kv2 (List.mem_cons_of_mem kv hkv2)) b1 b2 hperm2
      refine ⟨c1, c2, c3, ?_, ?_⟩
      · intro x hx
        exact c4 x (b4 x (List.mem_append.mpr (Or.inl hx)))
      · intro kv2 hkv2
        rcases List.mem_cons.mp hkv2 with rfl | hkv2t
        · exact c4 kv2.1 (b4 kv2.1 (List.mem_append.mpr (Or.inr (List.mem_singleton.mpr rfl))))
        · exact c5 kv2 hkv2t

theorem getConnectedComponents_spec (g : Graph) :
    ((getConnectedComponents g).flatMap id).Nodup ∧
    ∀ s ∈ segKeys g, ∃ comp ∈ getConnectedComponents g, s ∈ comp := by
  obtain ⟨c1, c2, c3, c4, c5⟩ := ccFold_spec g g.segments ([], [])
    (fun kv hkv => segKey_mem_allNodes g kv hkv) (by simp) (by simp) (by simp)
  constructor
  · exact c3.nodup c1
  · intro s hs
    obtain ⟨kv, hkv, rfl⟩ := List.mem_map.mp hs
    have hv : kv.1 ∈ (g.segments.foldl (ccStep g) ([], [])).2 := c5 kv hkv
    have hflat : kv.1 ∈ (getConnectedComponents g).flatMap id := by
      unfold getConnectedComponents
      exact c3.subset hv
    rw [List.mem_flatMap] at hflat
    obtain ⟨comp, hcomp, hmem⟩ := hflat
    exact ⟨comp, hcomp, hmem⟩

theorem find?_component_unique (s : Int) : ∀ (l : List (List Int)) (c : List Int),
    (l.flatMap id).Nodup → c ∈ l → s ∈ c →
    l.find? (fun c2 => decide (s ∈ c2)) = some c := by
  intro l
  induction l with
  | nil =>
    intro c _ hc
    simp at hc
  | cons c0 t ih =>
    intro c hnd hc hsc
    have hnd2 : (c0 ++ t.flatMap id).Nodup := by simpa using hnd
    rw [List.nodup_append] at hnd2
    by_cases hs0 : s ∈ c0
    · have hcc0 : c = c0 := by
        rcases List.mem_cons.mp hc with rfl | hct
        · rfl
        · exfalso
          have : s ∈ t.flatMap id := List.mem_flatMap.mpr ⟨c, hct, hsc⟩
          exact hnd2.2.2 hs0 this
      rw [hcc0]
      exact List.find?_cons_of_pos _ (by simpa using hs0)
    · have hct : c ∈ t := by
        rcases List.mem_cons.mp hc with rfl | hct
        · exact absurd hsc hs0
        · exact hct
      rw [List.find?_cons_of_neg _ (by simpa using hs0)]
      exact ih c hnd2.2.1 hct hsc

/-- The connected component containing `s` (the component of
`get_connected_components` whose element list contains `s`). -/
def componentOf (g : Graph) (s : Int) : List Int :=
  ((getConnectedComponents g).find? (fun c => decide (s ∈ c))).getD []

theorem componentOf_spec (g : Graph) (s : Int) (hs : s ∈ segKeys g) :
    componentOf g s ∈ getConnectedComponents g ∧ s ∈ componentOf g s ∧
    ∀ c ∈ getConnectedComponents g, s ∈ c → c = componentOf g s := by
  obtain ⟨hnd, hcover⟩ := getConnectedComponents_spec g
  obtain ⟨c0, hc0, hsc0⟩ := hcover s hs
  have hfind : (getConnectedComponents g).find? (fun c => decide (s ∈ c)) = some c0 :=
    find?_component_unique s (getConnectedComponents g) c0 hnd hc0 hsc0
  have hco : componentOf g s = c0 := by
    unfold componentOf
    rw [hfind]
    rfl
  rw [hco]
  refine ⟨hc0, hsc0, ?_⟩
  intro c hc hsc
  have := find?_component_unique s (getConnectedComponents g) c hnd hc hsc
  rw [hfind] at this
  exact (Option.some.injEq _ _ ▸ this).symm

theorem segKeys_removeSegments (g : Graph) (nums : List Int) (s : Int) :
    s ∈ segKeys (removeSegments g nums) ↔ s ∈ segKeys g ∧ s ∉ nums := by
  unfold removeSegments segKeys
  simp only [List.mem_map, List.mem_filter]
  constructor
  · rintro ⟨kv, ⟨hkv, hnotin⟩, rfl⟩
    exact ⟨⟨kv, hkv, rfl⟩, by simpa using hnotin⟩
  · rintro ⟨⟨kv, hkv, rfl⟩, hnotin⟩
    exact ⟨kv, ⟨hkv, by simpa using hnotin⟩, rfl⟩

/-- The segment numbers `filter_by_read_depth` collects for removal. -/
def removalNums (g : Graph) (relativeDepthCutoff : ℚ) : List Int :=
  (getConnectedComponents g).flatMap (fun component =>
    component.filter (removalCondB g (getMedianReadDepth g [] * relativeDepthCutoff)
      (getMedianReadDepth g (component.map (getSeg g)) * relativeDepthCutoff) component))

theorem filterByReadDepth_eq (g : Graph) (r : ℚ) :
    filterByReadDepth g r = removeSegments g (removalNums g r) := rfl

theorem removalCondB_iff (g : Graph) (wc cc : ℚ) (component : List Int) (num : Int) :
    removalCondB g wc cc component num = true ↔
      ((getSeg g num).depth < wc ∨ (getSeg g num).depth < cc) ∧
      (deadEndCount g num > 0 ∨ allSegmentsBelowDepth g component wc = true ∨
       deletingWouldCreateDeadEnd g num = false) := by
  unfold removalCondB
  simp only [Bool.and_eq_true, Bool.or_eq_true, decide_eq_true_eq, Bool.not_eq_true']
  tauto

/-- C5: `filter_by_read_depth(r)` removes exactly the segments the claim
describes: `s` is removed iff it is below cutoff — its depth under the
whole-graph median times `r`, or under its connected component's median
times `r`, both medians taken on the pre-removal graph — and additionally
it has a dead end, or every segment of its component is below the
whole-graph cutoff, or deleting it would not create a dead end. -/
theorem filter_by_read_depth_spec (g : Graph) (r : ℚ) (s : Int)
    (hs : s ∈ segKeys g) :
    s ∉ segKeys (filterByReadDepth g r) ↔
      (((getSeg g s).depth < getMedianReadDepth g [] * r ∨
        (getSeg g s).depth <
          getMedianReadDepth g ((componentOf g s).map (getSeg g)) * r) ∧
       (deadEndCount g s > 0 ∨
        allSegmentsBelowDepth g (componentOf g s)
          (getMedianReadDepth g [] * r) = true ∨
        deletingWouldCreateDeadEnd g s = false)) := by
  obtain ⟨hcin, hcmem, huniq⟩ := componentOf_spec g s hs
  rw [filterByReadDepth_eq]
  have h1 : s ∉ segKeys (removeSegments g (removalNums g r)) ↔ s ∈ removalNums g r := by
    rw [segKeys_removeSegments]
    constructor
    · intro h
      by_contra hnot
      exact h ⟨hs, hnot⟩
    · intro h hcon
      exact hcon.2 h
  rw [h1]
  unfold removalNums
  rw [List.mem_flatMap]
  constructor
  · rintro ⟨comp, hcomp, hmem⟩
    rw [List.mem_filter] at hmem
    have hceq : comp = componentOf g s := huniq comp hcomp hmem.1
    rw [hceq] at hmem
    exact (removalCondB_iff g _ _ _ s).mp hmem.2
  · intro h
    refine ⟨componentOf g s, hcin, ?_⟩
    rw [List.mem_filter]
    exact ⟨hcmem, (removalCondB_iff g _ _ _ s).mpr h⟩

/-- Witness for C5: the removal characterisation at a concrete graph and
segment, the key-membership hypothesis discharged by `decide`. -/
theorem filter_by_read_depth_spec_witness :
    (1 : Int) ∉ segKeys (filterByReadDepth gChain 1) ↔
      (((getSeg gChain 1).depth < getMedianReadDepth gChain [] * 1 ∨
        (getSeg gChain 1).depth <
          getMedianReadDepth gChain ((componentOf gChain 1).map (getSeg gChain)) * 1) ∧
       (deadEndCount gChain 1 > 0 ∨
        allSegmentsBelowDepth gChain (componentOf gChain 1)
          (getMedianReadDepth gChain [] * 1) = true ∨
        deletingWouldCreateDeadEnd gChain 1 = false)) :=
  filter_by_read_depth_spec gChain 1 1 (by decide)
